import Mathlib

/-!
Verification of the color classifier of `subtitle_ocr/src/bitmap.rs`.

The Rust code is shallowly embedded: `Rgba<u8>` pixels become a structure of
four `Nat` channel values, `RgbaImage` becomes a width/height pair with a
pixel function, the two `HashMap`s become association lists (with the
hash-map iteration order, which Rust leaves unspecified, made an explicit
parameter where the code iterates over a map), the `cast::i32(..)?` error
path and the two `expect` panics become an `Except` error type, and the
`f64` fractions of small integer counts are modelled by exact rationals.
-/

namespace Substudy

/-- Pixel values: `image::Rgba<u8>`, four 8-bit channels. Channel values are
the `u8` values `0 ..= 255`. -/
structure Rgba where
  r : Nat
  g : Nat
  b : Nat
  a : Nat
deriving DecidableEq, Repr

/-- Rust `RgbaExt::is_transparent`: `self.data[3] < 0xff`. -/
def Rgba.is_transparent (c : Rgba) : Bool :=
  c.a < 255

/-- Rust `image::RgbaImage`: a `width × height` pixel grid. `pix x y` is
`get_pixel(x, y)`, meaningful for `x < width` and `y < height`. -/
structure RgbaImage where
  width : Nat
  height : Nat
  pix : Nat → Nat → Rgba

/-- Rust `RgbaImageExt::get_opt`: bounds-checked pixel lookup at signed
coordinates, `none` when out of bounds. -/
def RgbaImage.get_opt (img : RgbaImage) (x y : Int) : Option Rgba :=
  if x < 0 || y < 0 then none
  else if img.width ≤ x.toNat || img.height ≤ y.toNat then none
  else some (img.pix x.toNat y.toNat)

/-- Rust `enumerate_pixels()`: the `(x, y, pixel)` triples of the image in
row-major order (`y` outer, `x` inner), the order both loops of
`classify_colors` visit the pixels in. -/
def RgbaImage.pixelList (img : RgbaImage) : List (Nat × Nat × Rgba) :=
  (List.range img.height).flatMap fun y =>
    (List.range img.width).map fun x => (x, y, img.pix x y)

/-- Rust `ColorType`. -/
inductive ColorType where
  | Transparent
  | Shadow
  | Opaque
deriving DecidableEq, Repr

/-- Rust `impl From<ColorType> for usize`: the ordinal used to index the
count array. -/
def ColorType.toUsize : ColorType → Nat
  | .Transparent => 0
  | .Shadow => 1
  | .Opaque => 2

/-- Rust `AdjacentPixelInfo`: the `data: [usize; 3]` count array, with
`d0`, `d1`, `d2` standing for `data[0]`, `data[1]`, `data[2]`. -/
structure AdjacentPixelInfo where
  d0 : Nat
  d1 : Nat
  d2 : Nat
deriving DecidableEq, Repr

namespace AdjacentPixelInfo

/-- Rust `AdjacentPixelInfo::new`: all counts zero. -/
def new : AdjacentPixelInfo := ⟨0, 0, 0⟩

/-- Rust `count`: `self.data[usize::from(ct)]`. -/
def count (info : AdjacentPixelInfo) (ct : ColorType) : Nat :=
  match ct.toUsize with
  | 0 => info.d0
  | 1 => info.d1
  | _ => info.d2

/-- Rust `incr_count`: `self.data[usize::from(ct)] += 1`. -/
def incr_count (info : AdjacentPixelInfo) (ct : ColorType) : AdjacentPixelInfo :=
  match ct.toUsize with
  | 0 => { info with d0 := info.d0 + 1 }
  | 1 => { info with d1 := info.d1 + 1 }
  | _ => { info with d2 := info.d2 + 1 }

/-- Rust `total`: `data[0] + data[1] + data[2]`. -/
def total (info : AdjacentPixelInfo) : Nat :=
  info.d0 + info.d1 + info.d2

/-- Rust `fraction_adj_to`: `count(ct) as f64 / total() as f64`, the `f64`
division of the two integer counts modelled by the exact rational. -/
def fraction_adj_to (info : AdjacentPixelInfo) (ct : ColorType) : ℚ :=
  (info.count ct : ℚ) / (info.total : ℚ)

/-- Rust `looks_like_opaque_inside_shadow`:
`fraction_adj_to(Opaque) > 0.95`. -/
def looks_like_opaque_inside_shadow (info : AdjacentPixelInfo) : Bool :=
  info.fraction_adj_to ColorType.Opaque > (0.95 : ℚ)

/-- Rust `looks_like_shadow`: `fraction_adj_to(Opaque) > 0.33 &&
fraction_adj_to(Transparent) > 0.33`. -/
def looks_like_shadow (info : AdjacentPixelInfo) : Bool :=
  info.fraction_adj_to ColorType.Opaque > (0.33 : ℚ) &&
    info.fraction_adj_to ColorType.Transparent > (0.33 : ℚ)

end AdjacentPixelInfo

/-- Association-list model of `HashMap` lookup (`get`): the value at the
first entry with the given key. -/
def lookupKey {β : Type} : List (Rgba × β) → Rgba → Option β
  | [], _ => none
  | (k, v) :: rest, c => if k = c then some v else lookupKey rest c

/-- Association-list model of `HashMap::entry(c).or_insert(v)`: keep the map
when the key is present, append the new entry otherwise. -/
def insertIfAbsent {β : Type} (m : List (Rgba × β)) (c : Rgba) (v : β) :
    List (Rgba × β) :=
  match lookupKey m c with
  | some _ => m
  | none => m ++ [(c, v)]

/-- Association-list model of `HashMap::insert(c, v)`: overwrite the first
entry with the key, or append. -/
def insertKey {β : Type} : List (Rgba × β) → Rgba → β → List (Rgba × β)
  | [], c, v => [(c, v)]
  | (k, w) :: rest, c, v =>
    if k = c then (k, v) :: rest else (k, w) :: insertKey rest c v

/-- Association-list model of `HashMap::get_mut(c)` followed by a mutation
`f` of the entry: modify the first entry with the key, if any. -/
def modifyKey {β : Type} : List (Rgba × β) → Rgba → (β → β) → List (Rgba × β)
  | [], _, _ => []
  | (k, v) :: rest, c, f =>
    if k = c then (k, f v) :: rest else (k, v) :: modifyKey rest c f

/-- The ways `classify_colors` stops early: the recoverable `cast::i32`
overflow propagated with `?`, and the two `expect` panics of the tally
pass. -/
inductive ClassifyError where
  | castOverflow
  | unknownClassification
  | unknownAdjacentColor
deriving DecidableEq, Repr

/-- Rust `cast::i32(n)?` on a `u32` value: `n` as a signed value when
`n ≤ i32::MAX`, the propagated overflow error otherwise. -/
def cast_i32 (n : Nat) : Except ClassifyError Int :=
  if n < 2 ^ 31 then .ok (n : Int) else .error .castOverflow

/-- The body of the inner offset loop of `classify_colors`, for the
non-transparent pixel `px` at `(x, y)` and the offset `(dy, dx)`: skip the
centre, fetch the neighbour with `get_opt`, skip a same-colored neighbour,
otherwise classify the neighbour (`Transparent` when out of bounds, its
preliminary role otherwise, panicking when it has none) and increment the
tally of `px` for that role (panicking when `px` has no record). -/
def tallyOffset (img : RgbaImage) (classification : List (Rgba × ColorType))
    (x y : Nat) (px : Rgba) (adjacent : List (Rgba × AdjacentPixelInfo))
    (dy dx : Int) : Except ClassifyError (List (Rgba × AdjacentPixelInfo)) := do
  if dx = 0 ∧ dy = 0 then
    return adjacent
  let xi ← cast_i32 x
  let yi ← cast_i32 y
  let px_adj_opt := img.get_opt (xi + dx) (yi + dy)
  if px_adj_opt = some px then
    return adjacent
  let ct_adj ← match px_adj_opt with
    | none => Except.ok ColorType.Transparent
    | some px_adj =>
      match lookupKey classification px_adj with
      | some ct => Except.ok ct
      | none => Except.error ClassifyError.unknownClassification
  match lookupKey adjacent px with
  | some _ => return modifyKey adjacent px (fun info => info.incr_count ct_adj)
  | none => Except.error ClassifyError.unknownAdjacentColor

/-- The list `[-1, 0, 1]` both offset loops run over. -/
def offsetList : List Int := [-1, 0, 1]

/-- The body of the pixel loop of the tally pass: skip a transparent pixel,
otherwise fold `tallyOffset` over the 3×3 grid of offsets (`dy` outer,
`dx` inner). -/
def tallyPixel (img : RgbaImage) (classification : List (Rgba × ColorType))
    (adjacent : List (Rgba × AdjacentPixelInfo)) (x y : Nat) (px : Rgba) :
    Except ClassifyError (List (Rgba × AdjacentPixelInfo)) :=
  if px.is_transparent then .ok adjacent
  else
    offsetList.foldlM
      (fun adj dy =>
        offsetList.foldlM
          (fun adj2 dx => tallyOffset img classification x y px adj2 dy dx) adj)
      adjacent

/-- The whole tally pass: fold `tallyPixel` over all pixels in
`enumerate_pixels` order. -/
def tallyAll (img : RgbaImage) (classification : List (Rgba × ColorType))
    (adjacent0 : List (Rgba × AdjacentPixelInfo)) :
    Except ClassifyError (List (Rgba × AdjacentPixelInfo)) :=
  img.pixelList.foldlM
    (fun adj t => tallyPixel img classification adj t.1 t.2.1 t.2.2) adjacent0

/-- The first pass of `classify_colors`: split colors by alpha, with the
insert-if-absent semantics of `entry(..).or_insert(..)`. -/
def initialClassification (img : RgbaImage) : List (Rgba × ColorType) :=
  img.pixelList.foldl
    (fun m t =>
      if t.2.2.is_transparent then insertIfAbsent m t.2.2 ColorType.Transparent
      else insertIfAbsent m t.2.2 ColorType.Opaque)
    []

/-- The seeding of the `adjacent` map: one fresh record per non-transparent
color of the classification. `keys` is the order in which the hash map
lists the classification's keys (unspecified in Rust, so a parameter). -/
def seedAdjacent (keys : List Rgba) : List (Rgba × AdjacentPixelInfo) :=
  keys.foldl
    (fun adj c =>
      if c.is_transparent then adj else insertKey adj c AdjacentPixelInfo.new)
    []

/-- Rust `total_adj`: the sum of `total()` over all adjacency records. -/
def total_adj (adjacent : List (Rgba × AdjacentPixelInfo)) : Nat :=
  (adjacent.map fun p => p.2.total).sum

/-- The `have_opaque_inside_shadow` loop of `classify_colors`: the flag is
set when a record with `total() >= total_adj / 4` also
`looks_like_opaque_inside_shadow()`. -/
def have_opaque_inside_shadow (adjacent : List (Rgba × AdjacentPixelInfo)) : Bool :=
  adjacent.foldl
    (fun flag p =>
      if total_adj adjacent / 4 ≤ p.2.total ∧ p.2.looks_like_opaque_inside_shadow then
        true
      else flag)
    false

/-- The shadow-reclassification loop of `classify_colors`: run only when the
flag is set, overwrite each color whose record `looks_like_shadow()` with
`Shadow`. -/
def applyShadow (classification : List (Rgba × ColorType))
    (adjacent : List (Rgba × AdjacentPixelInfo)) : List (Rgba × ColorType) :=
  if have_opaque_inside_shadow adjacent then
    adjacent.foldl
      (fun cls p =>
        if p.2.looks_like_shadow then insertKey cls p.1 ColorType.Shadow else cls)
      classification
  else classification

/-- Rust `classify_colors`, with the iteration order of the classification's
keys (used to seed the `adjacent` map) made explicit: `HashMap` iteration
order is unspecified, and `classify_colors_keys_perm` shows any order that
lists the same keys yields the same map. -/
def classifyColorsWithOrder (img : RgbaImage) (keys : List Rgba) :
    Except ClassifyError (List (Rgba × ColorType)) :=
  (tallyAll img (initialClassification img) (seedAdjacent keys)).map
    (applyShadow (initialClassification img))

/-- Rust `classify_colors`, run with the classification keys listed in
insertion order. -/
def classify_colors (img : RgbaImage) :
    Except ClassifyError (List (Rgba × ColorType)) :=
  classifyColorsWithOrder img ((initialClassification img).map Prod.fst)

/-- The `adjacent` map as it stands when the tally pass of `classify_colors`
completes, right before the shadow heuristics read it. -/
def adjacentResult (img : RgbaImage) :
    Except ClassifyError (List (Rgba × AdjacentPixelInfo)) :=
  tallyAll img (initialClassification img)
    (seedAdjacent ((initialClassification img).map Prod.fst))

/-- Decidable equality of `Except` values, for evaluating concrete runs. -/
instance {ε α : Type} [DecidableEq ε] [DecidableEq α] : DecidableEq (Except ε α) :=
  fun x y =>
    match x, y with
    | .ok u, .ok v =>
      if h : u = v then isTrue (by rw [h]) else isFalse (by simp [h])
    | .error u, .error v =>
      if h : u = v then isTrue (by rw [h]) else isFalse (by simp [h])
    | .ok _, .error _ => isFalse (by simp)
    | .error _, .ok _ => isFalse (by simp)

/-- Specification value: the role the initial alpha split assigns to a
color. -/
def roleOf (c : Rgba) : ColorType :=
  if c.is_transparent then ColorType.Transparent else ColorType.Opaque

/-- Pointwise sum of two count records. -/
def addInfo (a b : AdjacentPixelInfo) : AdjacentPixelInfo :=
  ⟨a.d0 + b.d0, a.d1 + b.d1, a.d2 + b.d2⟩

/-- Sum of a list of count records. -/
def sumInfo : List AdjacentPixelInfo → AdjacentPixelInfo
  | [] => AdjacentPixelInfo.new
  | a :: l => addInfo a (sumInfo l)

/-- The 9 offsets `(dy, dx)` in the order the nested loops visit them. -/
def offsetPairs : List (Int × Int) :=
  offsetList.flatMap fun dy => offsetList.map fun dx => (dy, dx)

/-- Specification record: what the offset `(dy, dx)` contributes to the
record of the non-transparent pixel `px` at `(x, y)`: nothing for the centre
offset or a same-colored neighbour, one `Transparent` tally for an
out-of-bounds neighbour, and one tally of the neighbour's preliminary role
otherwise. -/
def offsetTally (img : RgbaImage) (classification : List (Rgba × ColorType))
    (x y : Nat) (px : Rgba) (dy dx : Int) : AdjacentPixelInfo :=
  if dy = 0 ∧ dx = 0 then AdjacentPixelInfo.new
  else
    match img.get_opt ((x : Int) + dx) ((y : Int) + dy) with
    | none => AdjacentPixelInfo.new.incr_count ColorType.Transparent
    | some px_adj =>
      if px_adj = px then AdjacentPixelInfo.new
      else
        match lookupKey classification px_adj with
        | some ct => AdjacentPixelInfo.new.incr_count ct
        | none => AdjacentPixelInfo.new

/-- Specification record: what the whole pixel `(x, y, px)` contributes to
the record of its own color: nothing when the pixel is transparent, the sum
of its 8 offset contributions otherwise. -/
def pixelTally (img : RgbaImage) (classification : List (Rgba × ColorType))
    (x y : Nat) (px : Rgba) : AdjacentPixelInfo :=
  if px.is_transparent then AdjacentPixelInfo.new
  else sumInfo (offsetPairs.map fun o => offsetTally img classification x y px o.1 o.2)

/-- Specification record for color `c` restricted to a list of pixels: the
sum of the contributions of the pixels of color `c`. -/
def specRecordOn (img : RgbaImage) (classification : List (Rgba × ColorType))
    (pixels : List (Nat × Nat × Rgba)) (c : Rgba) : AdjacentPixelInfo :=
  sumInfo (pixels.map fun t =>
    if t.2.2 = c then pixelTally img classification t.1 t.2.1 t.2.2
    else AdjacentPixelInfo.new)

/-- Specification record for color `c`: the adjacency tallies the whole
image accumulates for `c`. -/
def specRecord (img : RgbaImage) (classification : List (Rgba × ColorType))
    (c : Rgba) : AdjacentPixelInfo :=
  specRecordOn img classification img.pixelList c

/-- The non-transparent colors of the image in classification insertion
order: the keys the `adjacent` map is seeded with in the canonical run. -/
def canonicalKeys (img : RgbaImage) : List Rgba :=
  ((initialClassification img).map Prod.fst).filter fun c => !c.is_transparent

/-- Specification value of the whole tally pass: one entry per
non-transparent color, holding its specification record. -/
def specAdjacent (img : RgbaImage) : List (Rgba × AdjacentPixelInfo) :=
  (canonicalKeys img).map fun c => (c, specRecord img (initialClassification img) c)

/-- Relate two `Except` results: equal errors, or values related by `R`. -/
def exceptRel {ε σ1 σ2 : Type} (R : σ1 → σ2 → Prop) :
    Except ε σ1 → Except ε σ2 → Prop
  | .error a, .error b => a = b
  | .ok a, .ok b => R a b
  | _, _ => False

/-- Witness fixture: a fully transparent color. -/
def wTransp : Rgba := ⟨0, 0, 0, 0⟩

/-- Witness fixture: an opaque gray color. -/
def wGray : Rgba := ⟨153, 153, 153, 255⟩

/-- Witness fixture: a 2×1 image, one transparent and one gray pixel. -/
def wImg : RgbaImage := ⟨2, 1, fun x _ => if x = 0 then wTransp else wGray⟩

/-- Witness fixture: an image one pixel wider than the `i32` coordinate
range. -/
def wBigImg : RgbaImage := ⟨2 ^ 31 + 1, 1, fun _ _ => wGray⟩

/-! ### Association-list lemmas -/

theorem lookupKey_eq_none {β : Type} (m : List (Rgba × β)) (c : Rgba) :
    lookupKey m c = none ↔ c ∉ m.map Prod.fst := by
  induction m with
  | nil => simp [lookupKey]
  | cons p rest ih =>
    obtain ⟨k, v⟩ := p
    by_cases h : k = c
    · subst h
      simp [lookupKey]
    · have hck : ¬c = k := fun h2 => h h2.symm
      simp [lookupKey, h, ih, hck]

theorem lookupKey_isSome {β : Type} (m : List (Rgba × β)) (c : Rgba) :
    (∃ v, lookupKey m c = some v) ↔ c ∈ m.map Prod.fst := by
  rcases h : lookupKey m c with _ | v
  · rw [lookupKey_eq_none] at h
    simp [h]
  · have h2 : c ∈ m.map Prod.fst := by
      by_contra h3
      rw [← lookupKey_eq_none m c] at h3
      rw [h3] at h
      cases h
    simp [h2]

theorem lookupKey_append {β : Type} (m1 m2 : List (Rgba × β)) (c : Rgba) :
    lookupKey (m1 ++ m2) c =
      match lookupKey m1 c with
      | some v => some v
      | none => lookupKey m2 c := by
  induction m1 with
  | nil => simp [lookupKey]
  | cons p rest ih =>
    by_cases h : p.1 = c <;> simp [lookupKey, h, ih]

theorem lookupKey_eq_some_of_nodup {β : Type} (m : List (Rgba × β)) (c : Rgba)
    (v : β) (hnd : (m.map Prod.fst).Nodup) :
    lookupKey m c = some v ↔ (c, v) ∈ m := by
  induction m with
  | nil => simp [lookupKey]
  | cons p rest ih =>
    obtain ⟨k, w⟩ := p
    simp only [List.map_cons, List.nodup_cons] at hnd
    by_cases h : k = c
    · subst h
      simp only [lookupKey, if_pos rfl, List.mem_cons]
      constructor
      · rintro h2
        left
        cases h2
        rfl
      · rintro (h2 | h2)
        · cases h2
          rfl
        · exfalso
          exact hnd.1 (List.mem_map.2 ⟨(k, v), h2, rfl⟩)
    · simp only [lookupKey, if_neg h, List.mem_cons, ih hnd.2]
      constructor
      · exact fun h2 => Or.inr h2
      · rintro (h2 | h2)
        · cases h2
          exact absurd rfl h
        · exact h2

theorem lookupKey_insertKey {β : Type} (m : List (Rgba × β)) (c : Rgba) (v : β)
    (c2 : Rgba) :
    lookupKey (insertKey m c v) c2 = if c = c2 then some v else lookupKey m c2 := by
  induction m with
  | nil => simp [insertKey, lookupKey]
  | cons p rest ih =>
    obtain ⟨k, w⟩ := p
    by_cases h : k = c
    · subst h
      by_cases h2 : k = c2 <;> simp [insertKey, lookupKey, h2]
    · by_cases h2 : k = c2
      · subst h2
        have hck : ¬c = k := fun h3 => h h3.symm
        simp [insertKey, lookupKey, h, hck, ih]
      · simp [insertKey, lookupKey, h, h2, ih]

theorem map_fst_insertKey {β : Type} (m : List (Rgba × β)) (c : Rgba) (v : β) :
    (insertKey m c v).map Prod.fst =
      if c ∈ m.map Prod.fst then m.map Prod.fst else m.map Prod.fst ++ [c] := by
  induction m with
  | nil => simp [insertKey]
  | cons p rest ih =>
    obtain ⟨k, w⟩ := p
    by_cases h : k = c
    · subst h
      simp [insertKey]
    · have hck : ¬c = k := fun h3 => h h3.symm
      simp only [insertKey, if_neg h, List.map_cons, ih, List.mem_cons]
      by_cases h2 : c ∈ rest.map Prod.fst
      · simp [h2, hck]
      · simp [h2, hck]

theorem insertKey_of_not_mem {β : Type} (m : List (Rgba × β)) (c : Rgba) (v : β)
    (h : c ∉ m.map Prod.fst) : insertKey m c v = m ++ [(c, v)] := by
  induction m with
  | nil => simp [insertKey]
  | cons p rest ih =>
    simp only [List.map_cons, List.mem_cons] at h
    push_neg at h
    have hkc : ¬p.1 = c := fun h2 => h.1 h2.symm
    simp [insertKey, hkc, ih h.2]

theorem map_fst_modifyKey {β : Type} (m : List (Rgba × β)) (c : Rgba) (f : β → β) :
    (modifyKey m c f).map Prod.fst = m.map Prod.fst := by
  induction m with
  | nil => simp [modifyKey]
  | cons p rest ih =>
    by_cases h : p.1 = c
    · obtain ⟨k, w⟩ := p
      simp only at h
      subst h
      simp [modifyKey]
    · obtain ⟨k, w⟩ := p
      simp only at h
      simp [modifyKey, h, ih]

theorem lookupKey_modifyKey {β : Type} (m : List (Rgba × β)) (c : Rgba)
    (f : β → β) (c2 : Rgba) :
    lookupKey (modifyKey m c f) c2 =
      if c = c2 then (lookupKey m c).map f else lookupKey m c2 := by
  induction m with
  | nil => simp [modifyKey, lookupKey]
  | cons p rest ih =>
    obtain ⟨k, w⟩ := p
    by_cases h : k = c
    · subst h
      by_cases h2 : k = c2 <;> simp [modifyKey, lookupKey, h2]
    · by_cases h2 : k = c2
      · subst h2
        have hck : ¬c = k := fun h3 => h h3.symm
        simp [modifyKey, lookupKey, h, hck, ih]
      · simp [modifyKey, lookupKey, h, h2, ih]

theorem modifyKey_map_form {β : Type} (keys : List Rgba) (hnd : keys.Nodup)
    (f : Rgba → β) (k : Rgba) (g : β → β) :
    modifyKey (keys.map fun c => (c, f c)) k g =
      keys.map fun c => (c, if c = k then g (f c) else f c) := by
  induction keys with
  | nil => simp [modifyKey]
  | cons c rest ih =>
    simp only [List.nodup_cons] at hnd
    by_cases h : c = k
    · subst h
      simp only [List.map_cons, modifyKey, if_pos rfl]
      have htail : List.map (fun c2 => (c2, if c2 = c then g (f c2) else f c2)) rest
          = List.map (fun c2 => (c2, f c2)) rest := by
        apply List.map_congr_left
        intro b hb
        have hbc : ¬b = c := fun h2 => hnd.1 (h2 ▸ hb)
        simp [hbc]
      rw [htail]
      simp
    · simp only [List.map_cons, modifyKey, if_neg h, ih hnd.2]

theorem lookupKey_map_form {β : Type} (keys : List Rgba) (f : Rgba → β) (k : Rgba) :
    lookupKey (keys.map fun c => (c, f c)) k =
      if k ∈ keys then some (f k) else none := by
  induction keys with
  | nil => simp [lookupKey]
  | cons c rest ih =>
    by_cases h : c = k
    · subst h
      simp [lookupKey]
    · have hkc : ¬k = c := fun h2 => h h2.symm
      simp [lookupKey, h, ih, hkc]

theorem lookupKey_insertIfAbsent {β : Type} (m : List (Rgba × β)) (c : Rgba)
    (v : β) (c2 : Rgba) :
    lookupKey (insertIfAbsent m c v) c2 =
      if c = c2 then some ((lookupKey m c).getD v) else lookupKey m c2 := by
  unfold insertIfAbsent
  rcases h : lookupKey m c with _ | w
  · rw [lookupKey_append]
    by_cases h2 : c = c2
    · subst h2
      simp [h, lookupKey]
    · rcases h3 : lookupKey m c2 with _ | u <;>
        simp [h3, lookupKey, h2, fun h4 : c = c2 => h2 h4]
  · by_cases h2 : c = c2
    · subst h2
      simp [h]
    · simp [h2]

theorem map_fst_insertIfAbsent {β : Type} (m : List (Rgba × β)) (c : Rgba) (v : β) :
    (insertIfAbsent m c v).map Prod.fst =
      if c ∈ m.map Prod.fst then m.map Prod.fst else m.map Prod.fst ++ [c] := by
  unfold insertIfAbsent
  rcases h : lookupKey m c with _ | w
  · rw [lookupKey_eq_none] at h
    simp [h]
  · have h2 : c ∈ m.map Prod.fst := (lookupKey_isSome m c).1 ⟨w, h⟩
    simp [h2]

theorem nodup_insertIfAbsent {β : Type} (m : List (Rgba × β)) (c : Rgba) (v : β)
    (hnd : (m.map Prod.fst).Nodup) :
    ((insertIfAbsent m c v).map Prod.fst).Nodup := by
  rw [map_fst_insertIfAbsent]
  by_cases h : c ∈ m.map Prod.fst
  · simpa [h] using hnd
  · simp only [if_neg h]
    simpa [List.nodup_append, h] using hnd

/-! ### Count-record arithmetic -/

theorem addInfo_new_right (a : AdjacentPixelInfo) : addInfo a AdjacentPixelInfo.new = a := by
  simp [addInfo, AdjacentPixelInfo.new]

theorem addInfo_new_left (a : AdjacentPixelInfo) : addInfo AdjacentPixelInfo.new a = a := by
  simp [addInfo, AdjacentPixelInfo.new]

theorem addInfo_assoc (a b c : AdjacentPixelInfo) :
    addInfo (addInfo a b) c = addInfo a (addInfo b c) := by
  simp [addInfo]
  omega

theorem incr_count_eq_add (a : AdjacentPixelInfo) (ct : ColorType) :
    a.incr_count ct = addInfo a (AdjacentPixelInfo.new.incr_count ct) := by
  cases ct <;>
    simp [AdjacentPixelInfo.incr_count, AdjacentPixelInfo.new, addInfo, ColorType.toUsize]

theorem total_addInfo (a b : AdjacentPixelInfo) :
    (addInfo a b).total = a.total + b.total := by
  simp [addInfo, AdjacentPixelInfo.total]
  omega

theorem total_new : AdjacentPixelInfo.new.total = 0 := rfl

theorem total_incr_count (a : AdjacentPixelInfo) (ct : ColorType) :
    (a.incr_count ct).total = a.total + 1 := by
  cases ct <;>
    simp [AdjacentPixelInfo.incr_count, AdjacentPixelInfo.total, ColorType.toUsize] <;>
    omega

theorem count_le_total (a : AdjacentPixelInfo) (ct : ColorType) :
    a.count ct ≤ a.total := by
  cases ct <;>
    simp [AdjacentPixelInfo.count, AdjacentPixelInfo.total, ColorType.toUsize] <;>
    omega

theorem total_sumInfo (l : List AdjacentPixelInfo) :
    (sumInfo l).total = (l.map AdjacentPixelInfo.total).sum := by
  induction l with
  | nil => simp [sumInfo, total_new]
  | cons a l ih => simp [sumInfo, total_addInfo, ih]

/-! ### Machinery for `foldlM` over `Except` -/

theorem except_ok_bind {ε α β : Type} (a : α) (k : α → Except ε β) :
    (Except.ok a >>= k) = k a := rfl

theorem except_error_bind {ε α β : Type} (e : ε) (k : α → Except ε β) :
    ((Except.error e : Except ε α) >>= k) = Except.error e := rfl

theorem except_bind_ok {ε α β : Type} (x : Except ε α) (k : α → Except ε β)
    (out : β) (h : (x >>= k) = .ok out) : ∃ a, x = .ok a ∧ k a = .ok out := by
  cases x with
  | error e => rw [except_error_bind] at h; cases h
  | ok a => exact ⟨a, rfl, by rwa [except_ok_bind] at h⟩

/-- A successful `foldlM` whose every successful step computes the pure step
`g` and preserves `P` computes the pure `foldl` of `g`. -/
theorem foldlM_ok_elim {σ α ε : Type} (l : List α) (f : σ → α → Except ε σ)
    (g : α → σ → σ) (P : σ → Prop)
    (hstep : ∀ s a s2, P s → a ∈ l → f s a = .ok s2 → s2 = g a s ∧ P (g a s))
    (init : σ) (hinit : P init) (out : σ)
    (h : l.foldlM f init = .ok out) :
    out = l.foldl (fun s a => g a s) init ∧ P out := by
  induction l generalizing init with
  | nil =>
    rw [List.foldlM_nil] at h
    cases h
    exact ⟨rfl, hinit⟩
  | cons a l ih =>
    rw [List.foldlM_cons] at h
    obtain ⟨s1, hfa, hrest⟩ := except_bind_ok _ _ _ h
    obtain ⟨hs1, hP1⟩ := hstep init a s1 hinit (List.mem_cons_self a l) hfa
    subst hs1
    have := ih (fun s a s2 hP ha => hstep s a s2 hP (List.mem_cons_of_mem _ ha))
      (g a init) hP1 hrest
    simpa using this

/-- Every step of a `foldlM` either succeeds preserving `P` or fails with
the fixed error `c`: then the fold as a whole does too. -/
theorem foldlM_ok_or_error {σ α ε : Type} (l : List α) (f : σ → α → Except ε σ)
    (P : σ → Prop) (c : ε)
    (hstep : ∀ s a, P s → a ∈ l → (∃ s2, f s a = .ok s2 ∧ P s2) ∨ f s a = .error c)
    (init : σ) (hinit : P init) :
    (∃ out, l.foldlM f init = .ok out ∧ P out) ∨ l.foldlM f init = .error c := by
  induction l generalizing init with
  | nil =>
    left
    exact ⟨init, by rw [List.foldlM_nil]; rfl, hinit⟩
  | cons a l ih =>
    rw [List.foldlM_cons]
    rcases hstep init a hinit (List.mem_cons_self a l) with ⟨s1, hfa, hP1⟩ | hfa
    · rw [hfa, except_ok_bind]
      exact ih (fun s a2 hP ha => hstep s a2 hP (List.mem_cons_of_mem _ ha)) s1 hP1
    · rw [hfa, except_error_bind]
      right
      rfl

/-- When moreover some fixed element of the list always fails with `c`, the
fold fails with `c`. -/
theorem foldlM_error_of_elem {σ α ε : Type} (l : List α) (f : σ → α → Except ε σ)
    (P : σ → Prop) (c : ε)
    (hstep : ∀ s a, P s → a ∈ l → (∃ s2, f s a = .ok s2 ∧ P s2) ∨ f s a = .error c)
    (a0 : α) (ha0 : a0 ∈ l) (herr : ∀ s, P s → f s a0 = .error c)
    (init : σ) (hinit : P init) :
    l.foldlM f init = .error c := by
  induction l generalizing init with
  | nil => cases ha0
  | cons a l ih =>
    rw [List.foldlM_cons]
    rcases hstep init a hinit (List.mem_cons_self a l) with ⟨s1, hfa, hP1⟩ | hfa
    · rcases List.mem_cons.1 ha0 with h0 | h0
      · subst h0
        rw [herr init hinit] at hfa
        cases hfa
      · rw [hfa, except_ok_bind]
        exact ih (fun s a2 hP ha => hstep s a2 hP (List.mem_cons_of_mem _ ha)) h0 s1 hP1
    · rw [hfa, except_error_bind]

/-- Two `foldlM` runs whose steps stay `exceptRel`-related stay related. -/
theorem foldlM_sim {σ1 σ2 α ε : Type} (l : List α)
    (f1 : σ1 → α → Except ε σ1) (f2 : σ2 → α → Except ε σ2)
    (R : σ1 → σ2 → Prop)
    (hstep : ∀ s1 s2 a, a ∈ l → R s1 s2 → exceptRel R (f1 s1 a) (f2 s2 a))
    (init1 : σ1) (init2 : σ2) (hinit : R init1 init2) :
    exceptRel R (l.foldlM f1 init1) (l.foldlM f2 init2) := by
  induction l generalizing init1 init2 with
  | nil =>
    rw [List.foldlM_nil, List.foldlM_nil]
    exact hinit
  | cons a l ih =>
    rw [List.foldlM_cons, List.foldlM_cons]
    have hrel := hstep init1 init2 a (List.mem_cons_self a l) hinit
    cases h1 : f1 init1 a with
    | error e =>
      rw [h1] at hrel
      cases h2 : f2 init2 a with
      | error e2 =>
        rw [h2] at hrel
        cases hrel
        rw [except_error_bind, except_error_bind]
        rfl
      | ok s2 =>
        rw [h2] at hrel
        cases hrel
    | ok s1 =>
      rw [h1] at hrel
      cases h2 : f2 init2 a with
      | error e2 =>
        rw [h2] at hrel
        cases hrel
      | ok s2 =>
        rw [h2] at hrel
        rw [except_ok_bind, except_ok_bind]
        exact ih (fun t1 t2 a2 ha => hstep t1 t2 a2 (List.mem_cons_of_mem _ ha)) s1 s2 hrel

/-! ### The pixel enumeration -/

theorem mem_pixelList (img : RgbaImage) (x y : Nat) (p : Rgba) :
    (x, y, p) ∈ img.pixelList ↔
      x < img.width ∧ y < img.height ∧ p = img.pix x y := by
  simp only [RgbaImage.pixelList, List.mem_flatMap, List.mem_map, List.mem_range]
  constructor
  · rintro ⟨y2, hy2, x2, hx2, heq⟩
    simp only [Prod.mk.injEq] at heq
    obtain ⟨hx, hy, hp⟩ := heq
    subst hx
    subst hy
    exact ⟨hx2, hy2, hp.symm⟩
  · rintro ⟨hx, hy, hp⟩
    exact ⟨y, hy, x, hx, by rw [hp]⟩

/-! ### The initial alpha split -/

theorem lookupKey_classify_foldl (l : List (Nat × Nat × Rgba))
    (m : List (Rgba × ColorType)) (c : Rgba) :
    lookupKey
      (l.foldl
        (fun m t =>
          if t.2.2.is_transparent then insertIfAbsent m t.2.2 ColorType.Transparent
          else insertIfAbsent m t.2.2 ColorType.Opaque)
        m) c =
      match lookupKey m c with
      | some v => some v
      | none => if ∃ t ∈ l, t.2.2 = c then some (roleOf c) else none := by
  induction l generalizing m with
  | nil =>
    rcases h : lookupKey m c with _ | v <;> simp [h]
  | cons t l ih =>
    rw [List.foldl_cons]
    have hstep : (if t.2.2.is_transparent then insertIfAbsent m t.2.2 ColorType.Transparent
        else insertIfAbsent m t.2.2 ColorType.Opaque) =
        insertIfAbsent m t.2.2 (roleOf t.2.2) := by
      unfold roleOf
      by_cases h : t.2.2.is_transparent <;> simp [h]
    rw [hstep, ih]
    rw [lookupKey_insertIfAbsent]
    by_cases h : t.2.2 = c
    · subst h
      rcases h2 : lookupKey m t.2.2 with _ | v
      · simp [h2]
      · simp [h2]
    · have hne : ¬t.2.2 = c := h
      rw [if_neg hne]
      rcases h2 : lookupKey m c with _ | v
      · simp only [h2]
        by_cases h3 : ∃ u ∈ l, u.2.2 = c
        · simp [h3, hne]
        · simp only [if_neg h3]
          have h4 : ¬∃ u ∈ t :: l, u.2.2 = c := by
            rintro ⟨u, hu, hc⟩
            rcases List.mem_cons.1 hu with h5 | h5
            · exact hne (h5 ▸ hc)
            · exact h3 ⟨u, h5, hc⟩
          rw [if_neg h4]
      · simp [h2]

theorem lookupKey_initialClassification (img : RgbaImage) (c : Rgba) :
    lookupKey (initialClassification img) c =
      if ∃ t ∈ img.pixelList, t.2.2 = c then some (roleOf c) else none := by
  unfold initialClassification
  rw [lookupKey_classify_foldl]
  simp [lookupKey]

theorem mem_keys_initialClassification (img : RgbaImage) (c : Rgba) :
    c ∈ (initialClassification img).map Prod.fst ↔ ∃ t ∈ img.pixelList, t.2.2 = c := by
  rw [← lookupKey_isSome, lookupKey_initialClassification]
  by_cases h : ∃ t ∈ img.pixelList, t.2.2 = c <;> simp [h]

theorem nodup_keys_initialClassification (img : RgbaImage) :
    ((initialClassification img).map Prod.fst).Nodup := by
  unfold initialClassification
  generalize img.pixelList = l
  have hgen : ∀ (l : List (Nat × Nat × Rgba)) (m : List (Rgba × ColorType)),
      (m.map Prod.fst).Nodup →
      (((l.foldl
        (fun m t =>
          if t.2.2.is_transparent then insertIfAbsent m t.2.2 ColorType.Transparent
          else insertIfAbsent m t.2.2 ColorType.Opaque)
        m)).map Prod.fst).Nodup := by
    intro l
    induction l with
    | nil => intro m hm; exact hm
    | cons t l ih =>
      intro m hm
      rw [List.foldl_cons]
      apply ih
      by_cases h : t.2.2.is_transparent <;>
        simp [h, nodup_insertIfAbsent _ _ _ hm]
  exact hgen l [] (by simp)

/-! ### Seeding the adjacency map -/

theorem seedAdjacent_loop (keys : List Rgba) (acc : List (Rgba × AdjacentPixelInfo))
    (hnd : keys.Nodup) (hdis : ∀ c ∈ keys, c ∉ acc.map Prod.fst) :
    keys.foldl
      (fun adj c =>
        if c.is_transparent then adj else insertKey adj c AdjacentPixelInfo.new)
      acc =
      acc ++ (keys.filter fun c => !c.is_transparent).map
        fun c => (c, AdjacentPixelInfo.new) := by
  induction keys generalizing acc with
  | nil => simp
  | cons c keys ih =>
    simp only [List.nodup_cons] at hnd
    rw [List.foldl_cons]
    by_cases h : c.is_transparent
    · rw [if_pos h]
      rw [ih acc hnd.2 (fun c2 hc2 => hdis c2 (List.mem_cons_of_mem _ hc2))]
      simp [List.filter_cons, h]
    · rw [if_neg h]
      rw [insertKey_of_not_mem acc c _ (hdis c (List.mem_cons_self c keys))]
      rw [ih (acc ++ [(c, AdjacentPixelInfo.new)]) hnd.2]
      · simp [List.filter_cons, h]
      · intro c2 hc2
        simp only [List.map_append, List.mem_append]
        rintro (h2 | h2)
        · exact hdis c2 (List.mem_cons_of_mem _ hc2) h2
        · simp only [List.map_cons, List.map_nil, List.mem_singleton] at h2
          exact hnd.1 (h2 ▸ hc2)

theorem seedAdjacent_eq (keys : List Rgba) (hnd : keys.Nodup) :
    seedAdjacent keys =
      (keys.filter fun c => !c.is_transparent).map fun c => (c, AdjacentPixelInfo.new) := by
  unfold seedAdjacent
  rw [seedAdjacent_loop keys [] hnd (by simp)]
  simp

/-! ### Modify-chain algebra -/

theorem modifyKey_id {β : Type} (m : List (Rgba × β)) (c : Rgba) :
    modifyKey m c (fun v => v) = m := by
  induction m with
  | nil => simp [modifyKey]
  | cons p rest ih =>
    obtain ⟨k, w⟩ := p
    by_cases h : k = c <;> simp [modifyKey, h, ih]

theorem modifyKey_addInfo_new (m : List (Rgba × AdjacentPixelInfo)) (c : Rgba) :
    modifyKey m c (fun r => addInfo r AdjacentPixelInfo.new) = m := by
  have h : (fun r => addInfo r AdjacentPixelInfo.new) = fun r : AdjacentPixelInfo => r :=
    funext addInfo_new_right
  rw [h, modifyKey_id]

theorem modifyKey_comp {β : Type} (m : List (Rgba × β)) (c : Rgba) (f g : β → β) :
    modifyKey (modifyKey m c f) c g = modifyKey m c (fun v => g (f v)) := by
  induction m with
  | nil => simp [modifyKey]
  | cons p rest ih =>
    obtain ⟨k, w⟩ := p
    by_cases h : k = c <;> simp [modifyKey, h, ih]

theorem lookupKey_modifyKey_isSome {β : Type} (m : List (Rgba × β)) (c k : Rgba)
    (f : β → β) (h : ∃ v, lookupKey m k = some v) :
    ∃ v, lookupKey (modifyKey m c f) k = some v := by
  obtain ⟨v, hv⟩ := h
  rw [lookupKey_modifyKey]
  by_cases h2 : c = k
  · subst h2
    exact ⟨f v, by simp [hv]⟩
  · exact ⟨v, by simp [h2, hv]⟩

theorem sumInfo_append (l1 l2 : List AdjacentPixelInfo) :
    sumInfo (l1 ++ l2) = addInfo (sumInfo l1) (sumInfo l2) := by
  induction l1 with
  | nil => simp [sumInfo, addInfo_new_left]
  | cons a l ih => simp [sumInfo, ih, addInfo_assoc]

theorem foldl_modify_single {γ : Type} (L : List γ) (h : γ → AdjacentPixelInfo)
    (m : List (Rgba × AdjacentPixelInfo)) (k : Rgba) :
    L.foldl (fun s a => modifyKey s k (fun r => addInfo r (h a))) m =
      modifyKey m k (fun r => addInfo r (sumInfo (L.map h))) := by
  induction L generalizing m with
  | nil => simp [sumInfo, modifyKey_addInfo_new]
  | cons a L ih =>
    rw [List.foldl_cons, ih, modifyKey_comp]
    have heq : (fun v => addInfo (addInfo v (h a)) (sumInfo (L.map h))) =
        fun r => addInfo r (sumInfo (List.map h (a :: L))) := by
      funext r
      simp [sumInfo, addInfo_assoc]
    rw [heq]

/-- `foldlM` where each step, under invariant `P`, either computes the pure
step `g` or fails with the fixed error `c`. -/
theorem foldlM_okval_or_error {σ α ε : Type} (l : List α) (f : σ → α → Except ε σ)
    (g : α → σ → σ) (P : σ → Prop) (c : ε)
    (hstep : ∀ s a, P s → a ∈ l → (f s a = .ok (g a s) ∧ P (g a s)) ∨ f s a = .error c)
    (init : σ) (hinit : P init) :
    (l.foldlM f init = .ok (l.foldl (fun s a => g a s) init) ∧
      P (l.foldl (fun s a => g a s) init)) ∨
      l.foldlM f init = .error c := by
  induction l generalizing init with
  | nil =>
    left
    rw [List.foldlM_nil, List.foldl_nil]
    exact ⟨rfl, hinit⟩
  | cons a l ih =>
    rw [List.foldlM_cons, List.foldl_cons]
    rcases hstep init a hinit (List.mem_cons_self a l) with ⟨hfa, hP1⟩ | hfa
    · rw [hfa, except_ok_bind]
      exact ih (fun s a2 hP ha => hstep s a2 hP (List.mem_cons_of_mem _ ha)) (g a init) hP1
    · rw [hfa, except_error_bind]
      right
      rfl

/-! ### The bounds-checked accessor -/

theorem get_opt_some (img : RgbaImage) (x y : Int) (p : Rgba)
    (h : img.get_opt x y = some p) :
    0 ≤ x ∧ 0 ≤ y ∧ x.toNat < img.width ∧ y.toNat < img.height ∧
      p = img.pix x.toNat y.toNat := by
  unfold RgbaImage.get_opt at h
  split at h
  · cases h
  · split at h
    · cases h
    · rename_i h1 h2
      injection h with h3
      simp only [Bool.or_eq_true, decide_eq_true_eq, not_or] at h1 h2
      refine ⟨by omega, by omega, by omega, by omega, h3.symm⟩

/-! ### One offset of the tally pass -/

theorem tallyOffset_ok_or_err (img : RgbaImage) (cls : List (Rgba × ColorType))
    (x y : Nat) (px : Rgba) (adjacent : List (Rgba × AdjacentPixelInfo))
    (dy dx : Int)
    (hcov : ∀ a b, a < img.width → b < img.height →
      ∃ ct, lookupKey cls (img.pix a b) = some ct)
    (hmem : ∃ r, lookupKey adjacent px = some r) :
    tallyOffset img cls x y px adjacent dy dx =
        .ok (modifyKey adjacent px
          (fun info => addInfo info (offsetTally img cls x y px dy dx))) ∨
      tallyOffset img cls x y px adjacent dy dx = .error .castOverflow := by
  unfold tallyOffset
  by_cases h0 : dx = 0 ∧ dy = 0
  · left
    have hC : (dy = 0 ∧ dx = 0) := ⟨h0.2, h0.1⟩
    simp only [if_pos h0, offsetTally, if_pos hC, modifyKey_addInfo_new]
    rfl
  · rw [if_neg h0]
    by_cases hx : x < 2 ^ 31
    · rw [show cast_i32 x = .ok (x : Int) from by unfold cast_i32; rw [if_pos hx], except_ok_bind]
      by_cases hy : y < 2 ^ 31
      · rw [show cast_i32 y = .ok (y : Int) from by unfold cast_i32; rw [if_pos hy], except_ok_bind]
        have hC : ¬(dy = 0 ∧ dx = 0) := fun h2 => h0 ⟨h2.2, h2.1⟩
        rcases hopt : img.get_opt ((x : Int) + dx) ((y : Int) + dy) with _ | p
        · left
          have hne : ¬(none : Option Rgba) = some px := by simp
          simp only [hopt, if_neg hne, except_ok_bind]
          obtain ⟨r, hr⟩ := hmem
          simp only [hr]
          simp only [offsetTally, if_neg hC, hopt]
          have heq : (fun info : AdjacentPixelInfo => info.incr_count ColorType.Transparent) =
              fun info => addInfo info (AdjacentPixelInfo.new.incr_count ColorType.Transparent) :=
            funext fun info => incr_count_eq_add info ColorType.Transparent
          rw [heq]
          rfl
        · by_cases hsame : some p = some px
          · left
            have hp : p = px := by injection hsame
            simp only [hopt, if_pos hsame]
            simp only [offsetTally, if_neg hC, hopt, if_pos hp, modifyKey_addInfo_new]
            rfl
          · left
            obtain ⟨hx0, hy0, hxb, hyb, hpv⟩ := get_opt_some img _ _ p hopt
            obtain ⟨ct, hct⟩ := hcov _ _ hxb hyb
            rw [← hpv] at hct
            have hpne : ¬p = px := fun h2 => hsame (by rw [h2])
            simp only [hopt, if_neg hsame, hct, except_ok_bind]
            obtain ⟨r, hr⟩ := hmem
            simp only [hr]
            simp only [offsetTally, if_neg hC, hopt, if_neg hpne, hct]
            have heq : (fun info : AdjacentPixelInfo => info.incr_count ct) =
                fun info => addInfo info (AdjacentPixelInfo.new.incr_count ct) :=
              funext fun info => incr_count_eq_add info ct
            rw [heq]
            rfl
      · right
        rw [show cast_i32 y = .error .castOverflow from by unfold cast_i32; rw [if_neg hy],
          except_error_bind]
        rfl
    · right
      rw [show cast_i32 x = .error .castOverflow from by unfold cast_i32; rw [if_neg hx],
        except_error_bind]
      rfl

/-! ### One pixel of the tally pass -/

theorem tallyPixel_ok_or_err (img : RgbaImage) (cls : List (Rgba × ColorType))
    (adjacent : List (Rgba × AdjacentPixelInfo)) (x y : Nat) (px : Rgba)
    (hcov : ∀ a b, a < img.width → b < img.height →
      ∃ ct, lookupKey cls (img.pix a b) = some ct)
    (hmem : px.is_transparent = false → ∃ r, lookupKey adjacent px = some r) :
    tallyPixel img cls adjacent x y px =
        .ok (modifyKey adjacent px
          (fun info => addInfo info (pixelTally img cls x y px))) ∨
      tallyPixel img cls adjacent x y px = .error .castOverflow := by
  by_cases ht : px.is_transparent
  · left
    unfold tallyPixel pixelTally
    rw [if_pos ht, if_pos ht, modifyKey_addInfo_new]
  · have hmem2 : ∃ r, lookupKey adjacent px = some r := hmem (by simpa using ht)
    unfold tallyPixel
    rw [if_neg ht]
    have hstepI : ∀ (s : List (Rgba × AdjacentPixelInfo)) (dy : Int),
        (∃ r, lookupKey s px = some r) → dy ∈ offsetList →
        ((offsetList.foldlM
            (fun adj2 dx => tallyOffset img cls x y px adj2 dy dx) s =
          .ok (modifyKey s px (fun r => addInfo r
            (sumInfo (offsetList.map fun dx => offsetTally img cls x y px dy dx)))) ∧
          ∃ r, lookupKey (modifyKey s px (fun r => addInfo r
            (sumInfo (offsetList.map fun dx => offsetTally img cls x y px dy dx)))) px =
              some r) ∨
          offsetList.foldlM
            (fun adj2 dx => tallyOffset img cls x y px adj2 dy dx) s =
            .error .castOverflow) := by
      intro s dy hP _
      have hinner := foldlM_okval_or_error offsetList
        (fun adj2 dx => tallyOffset img cls x y px adj2 dy dx)
        (fun dx s2 => modifyKey s2 px
          (fun r => addInfo r (offsetTally img cls x y px dy dx)))
        (fun s2 => ∃ r, lookupKey s2 px = some r) ClassifyError.castOverflow
        (fun s2 dx hP2 _ => by
          rcases tallyOffset_ok_or_err img cls x y px s2 dy dx hcov hP2 with h | h
          · exact Or.inl ⟨h, lookupKey_modifyKey_isSome _ _ _ _ hP2⟩
          · exact Or.inr h)
        s hP
      rwa [foldl_modify_single] at hinner
    have hmain := foldlM_okval_or_error offsetList
      (fun adj dy => offsetList.foldlM
        (fun adj2 dx => tallyOffset img cls x y px adj2 dy dx) adj)
      (fun dy s => modifyKey s px (fun r => addInfo r
        (sumInfo (offsetList.map fun dx => offsetTally img cls x y px dy dx))))
      (fun s => ∃ r, lookupKey s px = some r) ClassifyError.castOverflow
      (fun s dy hP hdy => hstepI s dy hP hdy) adjacent hmem2
    rw [foldl_modify_single] at hmain
    have hval : sumInfo (offsetList.map fun dy =>
        sumInfo (offsetList.map fun dx => offsetTally img cls x y px dy dx)) =
        pixelTally img cls x y px := by
      unfold pixelTally
      rw [if_neg ht]
      simp [offsetPairs, offsetList, sumInfo, addInfo_assoc, addInfo_new_right,
        addInfo_new_left]
    rw [hval] at hmain
    rcases hmain with ⟨h1, _⟩ | h1
    · exact Or.inl h1
    · exact Or.inr h1

/-! ### The whole tally pass -/

theorem foldl_modify_multi (img : RgbaImage) (cls : List (Rgba × ColorType))
    (pixels : List (Nat × Nat × Rgba)) (K : List Rgba) (hnd : K.Nodup)
    (f : Rgba → AdjacentPixelInfo) :
    pixels.foldl
      (fun s t => modifyKey s t.2.2
        (fun r => addInfo r (pixelTally img cls t.1 t.2.1 t.2.2)))
      (K.map fun c => (c, f c)) =
      K.map fun c => (c, addInfo (f c) (specRecordOn img cls pixels c)) := by
  induction pixels generalizing f with
  | nil =>
    simp [specRecordOn, sumInfo, addInfo_new_right]
  | cons t pixels ih =>
    rw [List.foldl_cons, modifyKey_map_form K hnd f t.2.2 _, ih]
    apply List.map_congr_left
    intro c hc
    by_cases h : c = t.2.2
    · have h2 : t.2.2 = c := h.symm
      simp only [if_pos h, specRecordOn, List.map_cons, sumInfo, if_pos h2]
      rw [addInfo_assoc]
    · have h2 : ¬t.2.2 = c := fun h3 => h h3.symm
      simp only [if_neg h, specRecordOn, List.map_cons, sumInfo, if_neg h2,
        addInfo_new_left]

theorem tallyAll_ok_or_err (img : RgbaImage) (cls : List (Rgba × ColorType))
    (K : List Rgba) (f0 : Rgba → AdjacentPixelInfo)
    (adjacent0 : List (Rgba × AdjacentPixelInfo)) (hnd : K.Nodup)
    (hcov : ∀ a b, a < img.width → b < img.height →
      ∃ ct, lookupKey cls (img.pix a b) = some ct)
    (hK : ∀ t ∈ img.pixelList, t.2.2.is_transparent = false → t.2.2 ∈ K)
    (hstart : adjacent0 = K.map fun c => (c, f0 c)) :
    tallyAll img cls adjacent0 =
        .ok (K.map fun c => (c, addInfo (f0 c) (specRecord img cls c))) ∨
      tallyAll img cls adjacent0 = .error .castOverflow := by
  subst hstart
  have hmain := foldlM_okval_or_error img.pixelList
    (fun adj t => tallyPixel img cls adj t.1 t.2.1 t.2.2)
    (fun t s => modifyKey s t.2.2
      (fun r => addInfo r (pixelTally img cls t.1 t.2.1 t.2.2)))
    (fun s => ∃ f, s = K.map fun c => (c, f c)) ClassifyError.castOverflow
    (fun s t hP ht => by
      obtain ⟨f, hf⟩ := hP
      have hmem : t.2.2.is_transparent = false → ∃ r, lookupKey s t.2.2 = some r := by
        intro htr
        rw [hf, lookupKey_map_form]
        rw [if_pos (hK t ht htr)]
        exact ⟨_, rfl⟩
      rcases tallyPixel_ok_or_err img cls s t.1 t.2.1 t.2.2 hcov hmem with h | h
      · refine Or.inl ⟨h, ?_⟩
        dsimp only
        rw [hf, modifyKey_map_form K hnd]
        exact ⟨_, rfl⟩
      · exact Or.inr h)
    (K.map fun c => (c, f0 c)) ⟨f0, rfl⟩
  rw [foldl_modify_multi img cls img.pixelList K hnd f0] at hmain
  rcases hmain with ⟨h1, _⟩ | h1
  · exact Or.inl h1
  · exact Or.inr h1

theorem adjacentResult_cases (img : RgbaImage) :
    adjacentResult img = .ok (specAdjacent img) ∨
      adjacentResult img = .error .castOverflow := by
  have hnd : (canonicalKeys img).Nodup :=
    (nodup_keys_initialClassification img).filter _
  have hcov : ∀ a b, a < img.width → b < img.height →
      ∃ ct, lookupKey (initialClassification img) (img.pix a b) = some ct := by
    intro a b ha hb
    rw [lookupKey_initialClassification]
    have hocc : ∃ t ∈ img.pixelList, t.2.2 = img.pix a b :=
      ⟨(a, b, img.pix a b), (mem_pixelList img a b _).2 ⟨ha, hb, rfl⟩, rfl⟩
    rw [if_pos hocc]
    exact ⟨_, rfl⟩
  have hK : ∀ t ∈ img.pixelList, t.2.2.is_transparent = false →
      t.2.2 ∈ canonicalKeys img := by
    intro t ht htr
    unfold canonicalKeys
    rw [List.mem_filter]
    exact ⟨(mem_keys_initialClassification img t.2.2).2 ⟨t, ht, rfl⟩, by simp [htr]⟩
  have hstart : seedAdjacent ((initialClassification img).map Prod.fst) =
      (canonicalKeys img).map fun c => (c, (fun _ => AdjacentPixelInfo.new) c) :=
    seedAdjacent_eq _ (nodup_keys_initialClassification img)
  have h := tallyAll_ok_or_err img (initialClassification img) (canonicalKeys img)
    (fun _ => AdjacentPixelInfo.new) _ hnd hcov hK hstart
  unfold adjacentResult
  rcases h with h | h
  · left
    rw [h]
    unfold specAdjacent
    apply congrArg
    apply List.map_congr_left
    intro c hc
    rw [addInfo_new_left]
  · right
    exact h

/-! ### The shadow heuristics -/

theorem foldl_flag_iff {γ : Type} (l : List γ) (cond : γ → Prop)
    [DecidablePred cond] (b : Bool) :
    l.foldl (fun flag p => if cond p then true else flag) b = true ↔
      b = true ∨ ∃ p ∈ l, cond p := by
  induction l generalizing b with
  | nil => simp
  | cons a l ih =>
    rw [List.foldl_cons]
    by_cases h : cond a
    · rw [if_pos h]
      rw [ih]
      simp [h]
    · rw [if_neg h]
      rw [ih]
      simp [h]

theorem have_opaque_inside_shadow_iff (adjacent : List (Rgba × AdjacentPixelInfo)) :
    have_opaque_inside_shadow adjacent = true ↔
      ∃ p ∈ adjacent, total_adj adjacent / 4 ≤ p.2.total ∧
        p.2.looks_like_opaque_inside_shadow = true := by
  unfold have_opaque_inside_shadow
  rw [foldl_flag_iff adjacent
    (fun p => total_adj adjacent / 4 ≤ p.2.total ∧ p.2.looks_like_opaque_inside_shadow)]
  simp

theorem shadowFold_lookup (adjacent : List (Rgba × AdjacentPixelInfo))
    (cls : List (Rgba × ColorType)) (c : Rgba) :
    lookupKey
      (adjacent.foldl
        (fun cls2 p =>
          if p.2.looks_like_shadow then insertKey cls2 p.1 ColorType.Shadow else cls2)
        cls) c =
      if ∃ p ∈ adjacent, p.1 = c ∧ p.2.looks_like_shadow = true
      then some ColorType.Shadow else lookupKey cls c := by
  induction adjacent generalizing cls with
  | nil => simp
  | cons p l ih =>
    rw [List.foldl_cons, ih]
    by_cases hex : ∃ q ∈ l, q.1 = c ∧ q.2.looks_like_shadow = true
    · rw [if_pos hex]
      have hex2 : ∃ q ∈ p :: l, q.1 = c ∧ q.2.looks_like_shadow = true := by
        obtain ⟨q, hq, h2⟩ := hex
        exact ⟨q, List.mem_cons_of_mem _ hq, h2⟩
      rw [if_pos hex2]
    · rw [if_neg hex]
      by_cases hsh : p.2.looks_like_shadow = true
      · rw [if_pos hsh, lookupKey_insertKey]
        by_cases hc : p.1 = c
        · rw [if_pos hc]
          have hex2 : ∃ q ∈ p :: l, q.1 = c ∧ q.2.looks_like_shadow = true :=
            ⟨p, List.mem_cons_self p l, hc, hsh⟩
          rw [if_pos hex2]
        · rw [if_neg hc]
          have hex2 : ¬∃ q ∈ p :: l, q.1 = c ∧ q.2.looks_like_shadow = true := by
            rintro ⟨q, hq, h2, h3⟩
            rcases List.mem_cons.1 hq with h4 | h4
            · exact hc (h4 ▸ h2)
            · exact hex ⟨q, h4, h2, h3⟩
          rw [if_neg hex2]
      · rw [if_neg hsh]
        have hex2 : ¬∃ q ∈ p :: l, q.1 = c ∧ q.2.looks_like_shadow = true := by
          rintro ⟨q, hq, h2, h3⟩
          rcases List.mem_cons.1 hq with h4 | h4
          · exact hsh (h4 ▸ h3)
          · exact hex ⟨q, h4, h2, h3⟩
        rw [if_neg hex2]

theorem applyShadow_lookup (cls : List (Rgba × ColorType))
    (adjacent : List (Rgba × AdjacentPixelInfo)) (c : Rgba) :
    lookupKey (applyShadow cls adjacent) c =
      if have_opaque_inside_shadow adjacent = true ∧
          ∃ p ∈ adjacent, p.1 = c ∧ p.2.looks_like_shadow = true
      then some ColorType.Shadow else lookupKey cls c := by
  unfold applyShadow
  by_cases hf : have_opaque_inside_shadow adjacent = true
  · rw [if_pos hf, shadowFold_lookup]
    by_cases hex : ∃ p ∈ adjacent, p.1 = c ∧ p.2.looks_like_shadow = true
    · rw [if_pos hex, if_pos ⟨hf, hex⟩]
    · rw [if_neg hex, if_neg (fun h2 => hex h2.2)]
  · rw [if_neg hf, if_neg (fun h2 => hf h2.1)]

theorem applyShadow_flag_false (cls : List (Rgba × ColorType))
    (adjacent : List (Rgba × AdjacentPixelInfo))
    (hf : have_opaque_inside_shadow adjacent = false) :
    applyShadow cls adjacent = cls := by
  unfold applyShadow
  rw [if_neg (by simp [hf])]

theorem map_fst_applyShadow (cls : List (Rgba × ColorType))
    (adjacent : List (Rgba × AdjacentPixelInfo))
    (hsub : ∀ p ∈ adjacent, p.1 ∈ cls.map Prod.fst) :
    (applyShadow cls adjacent).map Prod.fst = cls.map Prod.fst := by
  have hgen : ∀ (l : List (Rgba × AdjacentPixelInfo)) (cls2 : List (Rgba × ColorType)),
      (∀ p ∈ l, p.1 ∈ cls2.map Prod.fst) →
      ((l.foldl
        (fun cls2 p =>
          if p.2.looks_like_shadow then insertKey cls2 p.1 ColorType.Shadow else cls2)
        cls2).map Prod.fst) = cls2.map Prod.fst := by
    intro l
    induction l with
    | nil => intro cls2 _; rfl
    | cons p l ih =>
      intro cls2 hsub2
      rw [List.foldl_cons]
      by_cases hsh : p.2.looks_like_shadow = true
      · rw [if_pos hsh]
        have hkeys : (insertKey cls2 p.1 ColorType.Shadow).map Prod.fst =
            cls2.map Prod.fst := by
          rw [map_fst_insertKey, if_pos (hsub2 p (List.mem_cons_self p l))]
        rw [ih _ (fun q hq => by
          rw [hkeys]
          exact hsub2 q (List.mem_cons_of_mem _ hq))]
        exact hkeys
      · rw [if_neg hsh]
        exact ih cls2 (fun q hq => hsub2 q (List.mem_cons_of_mem _ hq))
  unfold applyShadow
  by_cases hf : have_opaque_inside_shadow adjacent = true
  · rw [if_pos hf]
    exact hgen adjacent cls hsub
  · rw [if_neg hf]

/-! ### Glue -/

theorem classify_colors_def (img : RgbaImage) :
    classify_colors img =
      (adjacentResult img).map (applyShadow (initialClassification img)) := rfl

theorem adjacentResult_ok_eq (img : RgbaImage) (adj : List (Rgba × AdjacentPixelInfo))
    (h : adjacentResult img = .ok adj) : adj = specAdjacent img := by
  rcases adjacentResult_cases img with h2 | h2
  · rw [h] at h2
    injection h2
  · rw [h] at h2
    cases h2

theorem exists_entry_iff_lookup {β : Type} (m : List (Rgba × β)) (c : Rgba)
    (Q : β → Prop) (hnd : (m.map Prod.fst).Nodup) :
    (∃ p ∈ m, p.1 = c ∧ Q p.2) ↔ ∃ v, lookupKey m c = some v ∧ Q v := by
  constructor
  · rintro ⟨p, hp, hpc, hq⟩
    refine ⟨p.2, ?_, hq⟩
    rw [lookupKey_eq_some_of_nodup m c p.2 hnd]
    have : (c, p.2) = p := by
      rw [← hpc]
    rw [this]
    exact hp
  · rintro ⟨v, hv, hq⟩
    rw [lookupKey_eq_some_of_nodup m c v hnd] at hv
    exact ⟨(c, v), hv, rfl, hq⟩

theorem mem_canonicalKeys (img : RgbaImage) (c : Rgba) :
    c ∈ canonicalKeys img ↔
      (∃ t ∈ img.pixelList, t.2.2 = c) ∧ c.is_transparent = false := by
  unfold canonicalKeys
  rw [List.mem_filter, mem_keys_initialClassification]
  simp

theorem nodup_canonicalKeys (img : RgbaImage) : (canonicalKeys img).Nodup :=
  (nodup_keys_initialClassification img).filter _

theorem map_fst_specAdjacent (img : RgbaImage) :
    (specAdjacent img).map Prod.fst = canonicalKeys img := by
  unfold specAdjacent
  rw [List.map_map]
  rw [show (Prod.fst ∘ fun c => (c, specRecord img (initialClassification img) c)) = id
    from funext fun c => rfl, List.map_id]

/-! ### Integer characterizations of the rational thresholds -/

theorem fraction_lt_iff (info : AdjacentPixelInfo) (ct : ColorType) (num den : Nat)
    (hden : 0 < den) :
    ((num : ℚ) / (den : ℚ) < info.fraction_adj_to ct) ↔
      num * info.total < den * info.count ct := by
  unfold AdjacentPixelInfo.fraction_adj_to
  rcases Nat.eq_zero_or_pos info.total with h0 | hpos
  · have hc0 : info.count ct = 0 := Nat.le_zero.1 (h0 ▸ count_le_total info ct)
    rw [h0, hc0]
    simp only [Nat.cast_zero, zero_div, Nat.mul_zero]
    constructor
    · intro h
      exfalso
      have hge : (0 : ℚ) ≤ (num : ℚ) / (den : ℚ) := by positivity
      linarith
    · intro h
      omega
  · have htQ : (0 : ℚ) < (info.total : ℚ) := by exact_mod_cast hpos
    have hdQ : (0 : ℚ) < (den : ℚ) := by exact_mod_cast hden
    rw [div_lt_div_iff₀ hdQ htQ]
    constructor
    · intro h
      have h2 : ((num * info.total : Nat) : ℚ) < ((den * info.count ct : Nat) : ℚ) := by
        push_cast
        linarith
      exact_mod_cast h2
    · intro h
      have h2 : ((num * info.total : Nat) : ℚ) < ((den * info.count ct : Nat) : ℚ) := by
        exact_mod_cast h
      push_cast at h2
      linarith

theorem looks_like_opaque_inside_shadow_iff (info : AdjacentPixelInfo) :
    info.looks_like_opaque_inside_shadow = true ↔
      95 * info.total < 100 * info.count ColorType.Opaque := by
  unfold AdjacentPixelInfo.looks_like_opaque_inside_shadow
  rw [decide_eq_true_eq]
  rw [show (0.95 : ℚ) = (95 : Nat) / (100 : Nat) from by norm_num]
  exact fraction_lt_iff info ColorType.Opaque 95 100 (by norm_num)

theorem looks_like_shadow_iff (info : AdjacentPixelInfo) :
    info.looks_like_shadow = true ↔
      33 * info.total < 100 * info.count ColorType.Opaque ∧
        33 * info.total < 100 * info.count ColorType.Transparent := by
  unfold AdjacentPixelInfo.looks_like_shadow
  rw [Bool.and_eq_true, decide_eq_true_eq, decide_eq_true_eq]
  rw [show (0.33 : ℚ) = (33 : Nat) / (100 : Nat) from by norm_num]
  exact and_congr (fraction_lt_iff info ColorType.Opaque 33 100 (by norm_num))
    (fraction_lt_iff info ColorType.Transparent 33 100 (by norm_num))

/-! ### Every record accrues at least one tally -/

theorem get_opt_neg (img : RgbaImage) (x y : Int) (h : x < 0 ∨ y < 0) :
    img.get_opt x y = none := by
  unfold RgbaImage.get_opt
  rw [if_pos]
  simp only [Bool.or_eq_true, decide_eq_true_eq]
  exact h

theorem get_opt_nat (img : RgbaImage) (a b : Nat) (ha : a < img.width)
    (hb : b < img.height) : img.get_opt (a : Int) (b : Int) = some (img.pix a b) := by
  unfold RgbaImage.get_opt
  rw [if_neg, if_neg]
  · simp
  · simp only [Bool.or_eq_true, decide_eq_true_eq, not_or]
    constructor <;> omega
  · simp only [Bool.or_eq_true, decide_eq_true_eq, not_or]
    constructor <;> omega

theorem offsetTally_total_one (img : RgbaImage) (cls : List (Rgba × ColorType))
    (x y : Nat) (c : Rgba)
    (hnb : img.get_opt ((x : Int) + (-1)) ((y : Int) + (-1)) = none ∨
      ∃ p ct, img.get_opt ((x : Int) + (-1)) ((y : Int) + (-1)) = some p ∧
        ¬p = c ∧ lookupKey cls p = some ct) :
    (offsetTally img cls x y c (-1) (-1)).total = 1 := by
  unfold offsetTally
  rw [if_neg (by decide : ¬((-1 : Int) = 0 ∧ (-1 : Int) = 0))]
  rcases hnb with h | ⟨p, ct, h, hne, hct⟩
  · simp only [h]
    rw [total_incr_count, total_new]
  · simp only [h, if_neg hne, hct]
    rw [total_incr_count, total_new]

theorem le_specRecord_total (img : RgbaImage) (cls : List (Rgba × ColorType))
    (c : Rgba) (hc : c.is_transparent = false) (x y : Nat)
    (hx : x < img.width) (hy : y < img.height) (hpix : img.pix x y = c)
    (h1 : 1 ≤ (offsetTally img cls x y c (-1) (-1)).total) :
    1 ≤ (specRecord img cls c).total := by
  have ht : (x, y, c) ∈ img.pixelList := (mem_pixelList img x y c).2 ⟨hx, hy, hpix.symm⟩
  have hpt : 1 ≤ (pixelTally img cls x y c).total := by
    unfold pixelTally
    rw [if_neg (by simp [hc])]
    rw [total_sumInfo]
    have hmem : (offsetTally img cls x y c (-1) (-1)).total ∈
        ((offsetPairs.map fun o => offsetTally img cls x y c o.1 o.2).map
          AdjacentPixelInfo.total) := by
      rw [List.map_map]
      apply List.mem_map.2
      refine ⟨((-1 : Int), (-1 : Int)), ?_, rfl⟩
      simp [offsetPairs, offsetList]
    calc 1 ≤ (offsetTally img cls x y c (-1) (-1)).total := h1
    _ ≤ _ := List.single_le_sum (fun a _ => Nat.zero_le a) _ hmem
  unfold specRecord specRecordOn
  rw [total_sumInfo]
  have hmem : (pixelTally img cls x y c).total ∈
      ((img.pixelList.map fun t =>
        if t.2.2 = c then pixelTally img cls t.1 t.2.1 t.2.2
        else AdjacentPixelInfo.new).map AdjacentPixelInfo.total) := by
    rw [List.map_map]
    apply List.mem_map.2
    exact ⟨(x, y, c), ht, by simp⟩
  calc 1 ≤ (pixelTally img cls x y c).total := hpt
  _ ≤ _ := List.single_le_sum (fun a _ => Nat.zero_le a) _ hmem

theorem specRecord_total_pos (img : RgbaImage) (c : Rgba)
    (hc : c.is_transparent = false) :
    ∀ y x, x < img.width → y < img.height → img.pix x y = c →
      1 ≤ (specRecord img (initialClassification img) c).total := by
  have hcov : ∀ a b, a < img.width → b < img.height →
      ∃ ct, lookupKey (initialClassification img) (img.pix a b) = some ct := by
    intro a b ha hb
    rw [lookupKey_initialClassification]
    have hocc : ∃ t ∈ img.pixelList, t.2.2 = img.pix a b :=
      ⟨(a, b, img.pix a b), (mem_pixelList img a b _).2 ⟨ha, hb, rfl⟩, rfl⟩
    rw [if_pos hocc]
    exact ⟨_, rfl⟩
  intro y
  induction y using Nat.strong_induction_on with
  | _ y ihy =>
    intro x hx hy hpix
    rcases Nat.eq_zero_or_pos y with hy0 | hypos
    · subst hy0
      apply le_specRecord_total img _ c hc x 0 hx hy hpix
      rw [offsetTally_total_one img _ x 0 c
        (Or.inl (get_opt_neg img _ _ (Or.inr (by norm_num))))]
    · obtain ⟨y2, rfl⟩ : ∃ y2, y = y2 + 1 := ⟨y - 1, by omega⟩
      rcases Nat.eq_zero_or_pos x with hx0 | hxpos
      · subst hx0
        apply le_specRecord_total img _ c hc 0 (y2 + 1) hx hy hpix
        rw [offsetTally_total_one img _ 0 (y2 + 1) c
          (Or.inl (get_opt_neg img _ _ (Or.inl (by norm_num))))]
      · obtain ⟨x2, rfl⟩ : ∃ x2, x = x2 + 1 := ⟨x - 1, by omega⟩
        by_cases hsame : img.pix x2 y2 = c
        · exact ihy y2 (by omega) x2 (by omega) (by omega) hsame
        · apply le_specRecord_total img _ c hc (x2 + 1) (y2 + 1) hx hy hpix
          have e1 : ((x2 + 1 : Nat) : Int) + (-1) = ((x2 : Nat) : Int) := by
            push_cast
            ring
          have e2 : ((y2 + 1 : Nat) : Int) + (-1) = ((y2 : Nat) : Int) := by
            push_cast
            ring
          have hopt : img.get_opt (((x2 + 1 : Nat) : Int) + (-1))
              (((y2 + 1 : Nat) : Int) + (-1)) = some (img.pix x2 y2) := by
            rw [e1, e2]
            exact get_opt_nat img x2 y2 (by omega) (by omega)
          obtain ⟨ct, hct⟩ := hcov x2 y2 (by omega) (by omega)
          rw [offsetTally_total_one img _ (x2 + 1) (y2 + 1) c
            (Or.inr ⟨img.pix x2 y2, ct, hopt, hsame, hct⟩)]

/-! ### More glue -/

theorem initialClassification_cov (img : RgbaImage) :
    ∀ a b, a < img.width → b < img.height →
      ∃ ct, lookupKey (initialClassification img) (img.pix a b) = some ct := by
  intro a b ha hb
  rw [lookupKey_initialClassification]
  have hocc : ∃ t ∈ img.pixelList, t.2.2 = img.pix a b :=
    ⟨(a, b, img.pix a b), (mem_pixelList img a b _).2 ⟨ha, hb, rfl⟩, rfl⟩
  rw [if_pos hocc]
  exact ⟨_, rfl⟩

theorem occurs_iff (img : RgbaImage) (c : Rgba) :
    (∃ t ∈ img.pixelList, t.2.2 = c) ↔
      ∃ x y, x < img.width ∧ y < img.height ∧ img.pix x y = c := by
  constructor
  · rintro ⟨⟨x, y, p⟩, ht, hc⟩
    rw [mem_pixelList] at ht
    exact ⟨x, y, ht.1, ht.2.1, by rw [← ht.2.2]; exact hc⟩
  · rintro ⟨x, y, hx, hy, hp⟩
    exact ⟨(x, y, c), (mem_pixelList img x y c).2 ⟨hx, hy, hp.symm⟩, rfl⟩

theorem classify_colors_ok_eq (img : RgbaImage) (m : List (Rgba × ColorType))
    (hm : classify_colors img = .ok m) :
    m = applyShadow (initialClassification img) (specAdjacent img) ∧
      adjacentResult img = .ok (specAdjacent img) := by
  rcases adjacentResult_cases img with h | h
  · rw [classify_colors_def, h] at hm
    injection hm with h2
    exact ⟨h2.symm, h⟩
  · rw [classify_colors_def, h] at hm
    cases hm

theorem canonical_step (img : RgbaImage) :
    ∀ (s : List (Rgba × AdjacentPixelInfo)) (t : Nat × Nat × Rgba),
      (∃ f : Rgba → AdjacentPixelInfo,
        s = (canonicalKeys img).map fun c => (c, f c)) → t ∈ img.pixelList →
      ((∃ s2, tallyPixel img (initialClassification img) s t.1 t.2.1 t.2.2 = .ok s2 ∧
        ∃ f : Rgba → AdjacentPixelInfo,
          s2 = (canonicalKeys img).map fun c => (c, f c)) ∨
        tallyPixel img (initialClassification img) s t.1 t.2.1 t.2.2 =
          .error .castOverflow) := by
  intro s t hP ht
  obtain ⟨f, hf⟩ := hP
  have hmem : t.2.2.is_transparent = false → ∃ r, lookupKey s t.2.2 = some r := by
    intro htr
    rw [hf, lookupKey_map_form]
    have hK : t.2.2 ∈ canonicalKeys img := by
      rw [mem_canonicalKeys]
      exact ⟨⟨t, ht, rfl⟩, htr⟩
    rw [if_pos hK]
    exact ⟨_, rfl⟩
  rcases tallyPixel_ok_or_err img (initialClassification img) s t.1 t.2.1 t.2.2
    (initialClassification_cov img) hmem with h | h
  · refine Or.inl ⟨_, h, ?_⟩
    rw [hf, modifyKey_map_form _ (nodup_canonicalKeys img)]
    exact ⟨_, rfl⟩
  · exact Or.inr h

/-! ### Overflow propagation -/

theorem tallyOffset_overflow (img : RgbaImage) (cls : List (Rgba × ColorType))
    (x y : Nat) (px : Rgba) (adjacent : List (Rgba × AdjacentPixelInfo))
    (dy dx : Int) (h0 : ¬(dx = 0 ∧ dy = 0)) (hbig : 2 ^ 31 ≤ x ∨ 2 ^ 31 ≤ y) :
    tallyOffset img cls x y px adjacent dy dx = .error .castOverflow := by
  unfold tallyOffset
  rw [if_neg h0]
  by_cases hx : x < 2 ^ 31
  · have hy : ¬y < 2 ^ 31 := by rcases hbig with h | h <;> omega
    rw [show cast_i32 x = .ok (x : Int) from by unfold cast_i32; rw [if_pos hx],
      except_ok_bind]
    rw [show cast_i32 y = .error .castOverflow from by unfold cast_i32; rw [if_neg hy],
      except_error_bind]
    rfl
  · rw [show cast_i32 x = .error .castOverflow from by unfold cast_i32; rw [if_neg hx],
      except_error_bind]
    rfl

theorem tallyPixel_overflow (img : RgbaImage) (cls : List (Rgba × ColorType))
    (adjacent : List (Rgba × AdjacentPixelInfo)) (x y : Nat) (px : Rgba)
    (hnt : px.is_transparent = false) (hbig : 2 ^ 31 ≤ x ∨ 2 ^ 31 ≤ y) :
    tallyPixel img cls adjacent x y px = .error .castOverflow := by
  unfold tallyPixel
  rw [if_neg (by simp [hnt])]
  rw [show offsetList = [-1, 0, 1] from rfl]
  rw [List.foldlM_cons, List.foldlM_cons]
  rw [tallyOffset_overflow img cls x y px adjacent (-1) (-1)
    (by decide) hbig, except_error_bind, except_error_bind]

/-! ### Witness fixtures evaluated -/

theorem wImg_initial : initialClassification wImg =
    [(wTransp, ColorType.Transparent), (wGray, ColorType.Opaque)] := by decide

theorem wImg_adj : adjacentResult wImg = .ok [(wGray, ⟨8, 0, 0⟩)] := by decide

theorem wImg_flag : have_opaque_inside_shadow [(wGray, ⟨8, 0, 0⟩)] = false := by
  rw [← Bool.not_eq_true, have_opaque_inside_shadow_iff]
  rintro ⟨p, hp, h1, h2⟩
  rw [List.mem_singleton] at hp
  subst hp
  rw [looks_like_opaque_inside_shadow_iff] at h2
  revert h2
  decide

theorem wImg_classify : classify_colors wImg =
    .ok [(wTransp, ColorType.Transparent), (wGray, ColorType.Opaque)] := by
  rw [classify_colors_def, wImg_adj]
  show Except.ok (applyShadow (initialClassification wImg) [(wGray, ⟨8, 0, 0⟩)]) = _
  rw [applyShadow_flag_false _ _ wImg_flag, wImg_initial]

/-! ### Simulation: the adjacency map's iteration order is irrelevant -/

theorem tallyOffset_sim (img : RgbaImage) (cls : List (Rgba × ColorType))
    (x y : Nat) (px : Rgba) (K1 K2 : List Rgba) (hperm : K1.Perm K2)
    (hnd1 : K1.Nodup) (hnd2 : K2.Nodup) (dy dx : Int)
    (s1 s2 : List (Rgba × AdjacentPixelInfo))
    (hR : ∃ g : Rgba → AdjacentPixelInfo,
      s1 = K1.map (fun c => (c, g c)) ∧ s2 = K2.map (fun c => (c, g c))) :
    exceptRel
      (fun s1 s2 => ∃ g : Rgba → AdjacentPixelInfo,
        s1 = K1.map (fun c => (c, g c)) ∧ s2 = K2.map (fun c => (c, g c)))
      (tallyOffset img cls x y px s1 dy dx)
      (tallyOffset img cls x y px s2 dy dx) := by
  obtain ⟨g, h1, h2⟩ := hR
  subst h1
  subst h2
  unfold tallyOffset
  by_cases h0 : dx = 0 ∧ dy = 0
  · rw [if_pos h0, if_pos h0]
    exact ⟨g, rfl, rfl⟩
  · rw [if_neg h0, if_neg h0]
    rcases hcx : cast_i32 x with e | xi
    · simp only [hcx, except_error_bind]
      rfl
    · simp only [hcx, except_ok_bind]
      rcases hcy : cast_i32 y with e | yi
      · simp only [hcy, except_error_bind]
        rfl
      · simp only [hcy, except_ok_bind]
        by_cases hsame : img.get_opt (xi + dx) (yi + dy) = some px
        · rw [if_pos hsame, if_pos hsame]
          exact ⟨g, rfl, rfl⟩
        · rw [if_neg hsame, if_neg hsame]
          rcases hopt : img.get_opt (xi + dx) (yi + dy) with _ | p
          · simp only [hopt, except_ok_bind]
            by_cases hmem : px ∈ K1
            · have hm2 : px ∈ K2 := hperm.mem_iff.1 hmem
              have hlk1 : lookupKey (K1.map fun c => (c, g c)) px = some (g px) := by
                rw [lookupKey_map_form, if_pos hmem]
              have hlk2 : lookupKey (K2.map fun c => (c, g c)) px = some (g px) := by
                rw [lookupKey_map_form, if_pos hm2]
              simp only [hlk1, hlk2]
              rw [modifyKey_map_form K1 hnd1, modifyKey_map_form K2 hnd2]
              exact ⟨_, rfl, rfl⟩
            · have hm2 : px ∉ K2 := fun h => hmem (hperm.mem_iff.2 h)
              have hlk1 : lookupKey (K1.map fun c => (c, g c)) px = none := by
                rw [lookupKey_map_form, if_neg hmem]
              have hlk2 : lookupKey (K2.map fun c => (c, g c)) px = none := by
                rw [lookupKey_map_form, if_neg hm2]
              simp only [hlk1, hlk2]
              rfl
          · rcases hlk : lookupKey cls p with _ | ct
            · simp only [hopt, hlk, except_error_bind]
              rfl
            · simp only [hopt, hlk, except_ok_bind]
              by_cases hmem : px ∈ K1
              · have hm2 : px ∈ K2 := hperm.mem_iff.1 hmem
                have hlk1 : lookupKey (K1.map fun c => (c, g c)) px = some (g px) := by
                  rw [lookupKey_map_form, if_pos hmem]
                have hlk2 : lookupKey (K2.map fun c => (c, g c)) px = some (g px) := by
                  rw [lookupKey_map_form, if_pos hm2]
                simp only [hlk1, hlk2]
                rw [modifyKey_map_form K1 hnd1, modifyKey_map_form K2 hnd2]
                exact ⟨_, rfl, rfl⟩
              · have hm2 : px ∉ K2 := fun h => hmem (hperm.mem_iff.2 h)
                have hlk1 : lookupKey (K1.map fun c => (c, g c)) px = none := by
                  rw [lookupKey_map_form, if_neg hmem]
                have hlk2 : lookupKey (K2.map fun c => (c, g c)) px = none := by
                  rw [lookupKey_map_form, if_neg hm2]
                simp only [hlk1, hlk2]
                rfl

theorem tallyPixel_sim (img : RgbaImage) (cls : List (Rgba × ColorType))
    (x y : Nat) (px : Rgba) (K1 K2 : List Rgba) (hperm : K1.Perm K2)
    (hnd1 : K1.Nodup) (hnd2 : K2.Nodup)
    (s1 s2 : List (Rgba × AdjacentPixelInfo))
    (hR : ∃ g : Rgba → AdjacentPixelInfo,
      s1 = K1.map (fun c => (c, g c)) ∧ s2 = K2.map (fun c => (c, g c))) :
    exceptRel
      (fun s1 s2 => ∃ g : Rgba → AdjacentPixelInfo,
        s1 = K1.map (fun c => (c, g c)) ∧ s2 = K2.map (fun c => (c, g c)))
      (tallyPixel img cls s1 x y px) (tallyPixel img cls s2 x y px) := by
  unfold tallyPixel
  by_cases ht : px.is_transparent
  · rw [if_pos ht, if_pos ht]
    exact hR
  · rw [if_neg ht, if_neg ht]
    apply foldlM_sim
    · intro t1 t2 dy _ hR2
      apply foldlM_sim
      · intro u1 u2 dx _ hR3
        exact tallyOffset_sim img cls x y px K1 K2 hperm hnd1 hnd2 dy dx u1 u2 hR3
      · exact hR2
    · exact hR

theorem applyShadow_lookup_perm (cls : List (Rgba × ColorType))
    (K1 K2 : List Rgba) (hperm : K1.Perm K2) (g : Rgba → AdjacentPixelInfo)
    (c : Rgba) :
    lookupKey (applyShadow cls (K1.map fun c => (c, g c))) c =
      lookupKey (applyShadow cls (K2.map fun c => (c, g c))) c := by
  have hadjperm : (K1.map fun c => (c, g c)).Perm (K2.map fun c => (c, g c)) :=
    hperm.map _
  have htot : total_adj (K1.map fun c => (c, g c)) =
      total_adj (K2.map fun c => (c, g c)) := by
    unfold total_adj
    exact (hadjperm.map _).sum_eq
  have htrans : ∀ (KA KB : List Rgba), KA.Perm KB →
      have_opaque_inside_shadow (KA.map fun c => (c, g c)) = true →
      have_opaque_inside_shadow (KB.map fun c => (c, g c)) = true := by
    intro KA KB hP h
    rw [have_opaque_inside_shadow_iff] at h ⊢
    have htotAB : total_adj (KA.map fun c => (c, g c)) =
        total_adj (KB.map fun c => (c, g c)) := by
      unfold total_adj
      exact ((hP.map _).map _).sum_eq
    obtain ⟨p, hp, h1, h2⟩ := h
    exact ⟨p, ((hP.map _).mem_iff).1 hp, by rw [← htotAB]; exact h1, h2⟩
  have hflag : have_opaque_inside_shadow (K1.map fun c => (c, g c)) =
      have_opaque_inside_shadow (K2.map fun c => (c, g c)) := by
    by_cases hf : have_opaque_inside_shadow (K1.map fun c => (c, g c)) = true
    · rw [hf, htrans K1 K2 hperm hf]
    · by_cases hf2 : have_opaque_inside_shadow (K2.map fun c => (c, g c)) = true
      · exact absurd (htrans K2 K1 hperm.symm hf2) hf
      · rw [Bool.not_eq_true] at hf hf2
        rw [hf, hf2]
  rw [applyShadow_lookup, applyShadow_lookup, hflag]
  have hcond : (have_opaque_inside_shadow (K2.map fun c => (c, g c)) = true ∧
      ∃ p ∈ K1.map fun c => (c, g c), p.1 = c ∧ p.2.looks_like_shadow = true) ↔
      (have_opaque_inside_shadow (K2.map fun c => (c, g c)) = true ∧
      ∃ p ∈ K2.map fun c => (c, g c), p.1 = c ∧ p.2.looks_like_shadow = true) := by
    apply and_congr_right
    intro _
    constructor
    · rintro ⟨p, hp, h2⟩
      exact ⟨p, hadjperm.mem_iff.1 hp, h2⟩
    · rintro ⟨p, hp, h2⟩
      exact ⟨p, hadjperm.mem_iff.2 hp, h2⟩
  exact if_congr hcond rfl rfl

/-! ### The claims -/

/-- C9: for all signed integer coordinates `(x, y)`, `get_opt` returns the
pixel value at `(x, y)` exactly when `0 ≤ x < width` and `0 ≤ y < height`,
and `none` otherwise (negative coordinates included); it is a pure function,
so it has no side effects. -/
theorem claim_get_opt_contract (img : RgbaImage) (x y : Int) :
    img.get_opt x y =
      if 0 ≤ x ∧ x < (img.width : Int) ∧ 0 ≤ y ∧ y < (img.height : Int)
      then some (img.pix x.toNat y.toNat) else none := by
  by_cases hin : 0 ≤ x ∧ x < (img.width : Int) ∧ 0 ≤ y ∧ y < (img.height : Int)
  · rw [if_pos hin]
    obtain ⟨hx0, hxw, hy0, hyh⟩ := hin
    unfold RgbaImage.get_opt
    rw [if_neg (show ¬((x < 0 || y < 0) = true) from by
      simp only [Bool.or_eq_true, decide_eq_true_eq, not_or]
      omega)]
    rw [if_neg (show ¬((img.width ≤ x.toNat || img.height ≤ y.toNat) = true) from by
      simp only [Bool.or_eq_true, decide_eq_true_eq, not_or]
      omega)]
  · rw [if_neg hin]
    unfold RgbaImage.get_opt
    by_cases h1 : (x < 0 || y < 0) = true
    · rw [if_pos h1]
    · rw [if_neg h1]
      rw [if_pos]
      simp only [Bool.or_eq_true, decide_eq_true_eq, not_or] at h1
      simp only [Bool.or_eq_true, decide_eq_true_eq]
      push_neg at hin
      omega

/-- C2: the `have_opaque_inside_shadow` flag is set iff there exists a color
whose adjacency record has `total() ≥ total_adj / 4` (integer division,
inclusive, so a record with `total()` exactly `total_adj / 4` passes) and
`fraction_adj_to(Opaque) > 0.95`, where `total_adj` is the sum of `total()`
over all records. -/
theorem claim_flag_condition (adjacent : List (Rgba × AdjacentPixelInfo)) :
    (have_opaque_inside_shadow adjacent = true ↔
      ∃ p ∈ adjacent, total_adj adjacent / 4 ≤ p.2.total ∧
        p.2.fraction_adj_to ColorType.Opaque > (0.95 : ℚ)) ∧
      total_adj adjacent = (adjacent.map fun p => p.2.total).sum := by
  refine ⟨?_, rfl⟩
  rw [have_opaque_inside_shadow_iff]
  constructor
  · rintro ⟨p, hp, h1, h2⟩
    refine ⟨p, hp, h1, ?_⟩
    unfold AdjacentPixelInfo.looks_like_opaque_inside_shadow at h2
    rwa [decide_eq_true_eq] at h2
  · rintro ⟨p, hp, h1, h2⟩
    refine ⟨p, hp, h1, ?_⟩
    unfold AdjacentPixelInfo.looks_like_opaque_inside_shadow
    rwa [decide_eq_true_eq]

/-- C10: the two `expect` fail-fast lookups of the tally pass never fire:
every run of `classify_colors` either returns a map or fails with the
recoverable cast overflow, never with `unknownClassification` (every
in-bounds neighbour's color is a key of the preliminary map) nor with
`unknownAdjacentColor` (every non-transparent centre pixel's color is a key
of the adjacency map). -/
theorem claim_expects_unreachable (img : RgbaImage) :
    ((∃ m, classify_colors img = .ok m) ∨
      classify_colors img = .error ClassifyError.castOverflow) ∧
      classify_colors img ≠ .error ClassifyError.unknownClassification ∧
      classify_colors img ≠ .error ClassifyError.unknownAdjacentColor := by
  have h : (∃ m, classify_colors img = .ok m) ∨
      classify_colors img = .error ClassifyError.castOverflow := by
    rcases adjacentResult_cases img with h | h
    · exact Or.inl ⟨_, by rw [classify_colors_def, h]; rfl⟩
    · exact Or.inr (by rw [classify_colors_def, h]; rfl)
  refine ⟨h, ?_, ?_⟩
  · rcases h with ⟨m, hm⟩ | hm <;> rw [hm] <;> simp
  · rcases h with ⟨m, hm⟩ | hm <;> rw [hm] <;> simp

/-- C8: when the conversion of a pixel index to the signed `i32` coordinate
space must fail (some non-transparent pixel has a coordinate of at least
`2^31`), `classify_colors` returns the recoverable `castOverflow` error
propagated from the entrypoint: the coordinate is never silently truncated
and no panic branch is taken. -/
theorem claim_cast_overflow_error (img : RgbaImage) (x y : Nat)
    (hx : x < img.width) (hy : y < img.height)
    (hnt : (img.pix x y).is_transparent = false)
    (hbig : 2 ^ 31 ≤ x ∨ 2 ^ 31 ≤ y) :
    classify_colors img = .error ClassifyError.castOverflow := by
  rw [classify_colors_def]
  have h : adjacentResult img = .error ClassifyError.castOverflow := by
    unfold adjacentResult tallyAll
    apply foldlM_error_of_elem img.pixelList
      (fun adj t => tallyPixel img (initialClassification img) adj t.1 t.2.1 t.2.2)
      (fun s => ∃ f : Rgba → AdjacentPixelInfo,
        s = (canonicalKeys img).map fun c => (c, f c))
      ClassifyError.castOverflow
      (canonical_step img)
      (x, y, img.pix x y)
      ((mem_pixelList img x y _).2 ⟨hx, hy, rfl⟩)
      (fun s _ => tallyPixel_overflow img _ s x y _ hnt hbig)
      _
      ⟨fun _ => AdjacentPixelInfo.new,
        seedAdjacent_eq _ (nodup_keys_initialClassification img)⟩
  rw [h]
  rfl

/-- Witness for C8: a 1-pixel-tall image one pixel wider than the `i32`
range fails with the cast overflow error. -/
theorem claim_cast_overflow_error_witness :
    classify_colors wBigImg = .error ClassifyError.castOverflow :=
  claim_cast_overflow_error wBigImg (2 ^ 31) 0 (by decide) (by decide) (by decide)
    (Or.inl (by decide))

/-- C1: after the adjacency tallies are built, a color is reclassified as
`Shadow` iff the `have_opaque_inside_shadow` flag is set and that color's
adjacency record has `fraction_adj_to(Opaque) > 0.33` and
`fraction_adj_to(Transparent) > 0.33`; every color not so reclassified keeps
the role of the initial alpha split, and when the flag is not set the
returned map equals the initial classification. -/
theorem claim_shadow_reclassification (img : RgbaImage)
    (adj : List (Rgba × AdjacentPixelInfo)) (m : List (Rgba × ColorType))
    (hadj : adjacentResult img = .ok adj) (hm : classify_colors img = .ok m)
    (c : Rgba) :
    ((have_opaque_inside_shadow adj = true ∧
        ∃ info, lookupKey adj c = some info ∧
          info.fraction_adj_to ColorType.Opaque > (0.33 : ℚ) ∧
          info.fraction_adj_to ColorType.Transparent > (0.33 : ℚ)) →
      lookupKey m c = some ColorType.Shadow) ∧
    (¬(have_opaque_inside_shadow adj = true ∧
        ∃ info, lookupKey adj c = some info ∧
          info.fraction_adj_to ColorType.Opaque > (0.33 : ℚ) ∧
          info.fraction_adj_to ColorType.Transparent > (0.33 : ℚ)) →
      lookupKey m c = lookupKey (initialClassification img) c) ∧
    (have_opaque_inside_shadow adj = false → m = initialClassification img) := by
  obtain ⟨hm2, _⟩ := classify_colors_ok_eq img m hm
  have hadjeq : adj = specAdjacent img := adjacentResult_ok_eq img adj hadj
  subst hadjeq
  subst hm2
  have hnd : ((specAdjacent img).map Prod.fst).Nodup := by
    rw [map_fst_specAdjacent]
    exact nodup_canonicalKeys img
  have hiff : ∀ info : AdjacentPixelInfo, info.looks_like_shadow = true ↔
      info.fraction_adj_to ColorType.Opaque > (0.33 : ℚ) ∧
      info.fraction_adj_to ColorType.Transparent > (0.33 : ℚ) := by
    intro info
    unfold AdjacentPixelInfo.looks_like_shadow
    rw [Bool.and_eq_true, decide_eq_true_eq, decide_eq_true_eq]
  have hcond : (∃ p ∈ specAdjacent img, p.1 = c ∧ p.2.looks_like_shadow = true) ↔
      ∃ info, lookupKey (specAdjacent img) c = some info ∧
        info.fraction_adj_to ColorType.Opaque > (0.33 : ℚ) ∧
        info.fraction_adj_to ColorType.Transparent > (0.33 : ℚ) := by
    have hel := exists_entry_iff_lookup (specAdjacent img) c
      (fun info => info.looks_like_shadow = true) hnd
    constructor
    · intro h
      obtain ⟨v, hv, hsh⟩ := hel.1 h
      exact ⟨v, hv, (hiff v).1 hsh⟩
    · rintro ⟨v, hv, hfr⟩
      exact hel.2 ⟨v, hv, (hiff v).2 hfr⟩
  refine ⟨?_, ?_, ?_⟩
  · intro hcondTrue
    rw [applyShadow_lookup, if_pos ⟨hcondTrue.1, hcond.2 hcondTrue.2⟩]
  · intro hcondFalse
    rw [applyShadow_lookup, if_neg]
    rintro ⟨h1, h2⟩
    exact hcondFalse ⟨h1, hcond.1 h2⟩
  · intro hf
    exact applyShadow_flag_false _ _ hf

/-- Witness for C1 at the 2×1 fixture: the flag is unset there, so the final
map is the initial classification. -/
theorem claim_shadow_reclassification_witness :
    [(wTransp, ColorType.Transparent), (wGray, ColorType.Opaque)] =
      initialClassification wImg :=
  (claim_shadow_reclassification wImg [(wGray, ⟨8, 0, 0⟩)]
    [(wTransp, ColorType.Transparent), (wGray, ColorType.Opaque)]
    wImg_adj wImg_classify wGray).2.2 wImg_flag

/-- C3: for every image on which `classify_colors` succeeds, the keys of the
returned map are exactly the distinct pixel colors of the image, each
present exactly once, and the same already holds for the preliminary map
built by the alpha split. -/
theorem claim_keys_exactly_image_colors (img : RgbaImage)
    (m : List (Rgba × ColorType)) (hm : classify_colors img = .ok m) :
    (((initialClassification img).map Prod.fst).Nodup ∧
      ∀ c : Rgba, c ∈ (initialClassification img).map Prod.fst ↔
        ∃ x y, x < img.width ∧ y < img.height ∧ img.pix x y = c) ∧
    (m.map Prod.fst).Nodup ∧
      ∀ c : Rgba, c ∈ m.map Prod.fst ↔
        ∃ x y, x < img.width ∧ y < img.height ∧ img.pix x y = c := by
  obtain ⟨hm2, _⟩ := classify_colors_ok_eq img m hm
  have hkeysm : m.map Prod.fst = (initialClassification img).map Prod.fst := by
    rw [hm2]
    apply map_fst_applyShadow
    intro p hp
    have hp2 : p.1 ∈ (specAdjacent img).map Prod.fst := List.mem_map.2 ⟨p, hp, rfl⟩
    rw [map_fst_specAdjacent] at hp2
    unfold canonicalKeys at hp2
    exact (List.mem_filter.1 hp2).1
  have hmemiff : ∀ c : Rgba, c ∈ (initialClassification img).map Prod.fst ↔
      ∃ x y, x < img.width ∧ y < img.height ∧ img.pix x y = c := by
    intro c
    rw [mem_keys_initialClassification, occurs_iff]
  refine ⟨⟨nodup_keys_initialClassification img, hmemiff⟩, ?_, ?_⟩
  · rw [hkeysm]
    exact nodup_keys_initialClassification img
  · intro c
    rw [hkeysm]
    exact hmemiff c

/-- Witness for C3 at the 2×1 fixture. -/
theorem claim_keys_exactly_image_colors_witness :
    (((initialClassification wImg).map Prod.fst).Nodup ∧
      ∀ c : Rgba, c ∈ (initialClassification wImg).map Prod.fst ↔
        ∃ x y, x < wImg.width ∧ y < wImg.height ∧ wImg.pix x y = c) ∧
    (([(wTransp, ColorType.Transparent),
        (wGray, ColorType.Opaque)]).map Prod.fst).Nodup ∧
      ∀ c : Rgba, c ∈ ([(wTransp, ColorType.Transparent),
          (wGray, ColorType.Opaque)]).map Prod.fst ↔
        ∃ x y, x < wImg.width ∧ y < wImg.height ∧ wImg.pix x y = c :=
  claim_keys_exactly_image_colors wImg _ wImg_classify

/-- C4: a color with any transparency (`alpha < 255`) gets the initial role
`Transparent`, and the final returned map still maps it to `Transparent`:
shadow reclassification never overwrites a transparent color because
adjacency records exist only for non-transparent colors. -/
theorem claim_transparent_stays (img : RgbaImage) (c : Rgba)
    (m : List (Rgba × ColorType)) (hc : c.is_transparent = true)
    (hocc : ∃ x y, x < img.width ∧ y < img.height ∧ img.pix x y = c)
    (hm : classify_colors img = .ok m) :
    lookupKey (initialClassification img) c = some ColorType.Transparent ∧
      lookupKey m c = some ColorType.Transparent := by
  have hinit : lookupKey (initialClassification img) c =
      some ColorType.Transparent := by
    rw [lookupKey_initialClassification, if_pos ((occurs_iff img c).2 hocc)]
    unfold roleOf
    rw [if_pos hc]
  refine ⟨hinit, ?_⟩
  obtain ⟨hm2, _⟩ := classify_colors_ok_eq img m hm
  rw [hm2, applyShadow_lookup, if_neg, hinit]
  rintro ⟨hf, p, hp, hpc, hsh⟩
  have hp2 : p.1 ∈ (specAdjacent img).map Prod.fst := List.mem_map.2 ⟨p, hp, rfl⟩
  rw [map_fst_specAdjacent, hpc, mem_canonicalKeys] at hp2
  simp [hc] at hp2

/-- Witness for C4 at the 2×1 fixture. -/
theorem claim_transparent_stays_witness :
    lookupKey (initialClassification wImg) wTransp = some ColorType.Transparent ∧
      lookupKey [(wTransp, ColorType.Transparent), (wGray, ColorType.Opaque)]
        wTransp = some ColorType.Transparent :=
  claim_transparent_stays wImg wTransp _ (by decide)
    ⟨0, 0, by decide, by decide, by decide⟩ wImg_classify

/-- C5: under a successful tally pass, every color's record equals the
specification record accumulated pixel by pixel: transparent pixels
contribute no tallies; each non-transparent pixel is examined at the 8
offsets of the 3×3 grid around it; an out-of-bounds neighbour is tallied as
`Transparent`; a neighbour of the identical color value is skipped; and
otherwise the centre color's counter for the neighbour's preliminary role
grows by exactly one (those clauses are `offsetTally` and `pixelTally`). -/
theorem claim_tally_pass_shape (img : RgbaImage)
    (adj : List (Rgba × AdjacentPixelInfo))
    (hadj : adjacentResult img = .ok adj) (c : Rgba) :
    lookupKey adj c =
      if (∃ t ∈ img.pixelList, t.2.2 = c) ∧ c.is_transparent = false
      then some (specRecord img (initialClassification img) c) else none := by
  rw [adjacentResult_ok_eq img adj hadj]
  unfold specAdjacent
  rw [lookupKey_map_form]
  by_cases hmem : c ∈ canonicalKeys img
  · rw [if_pos hmem, if_pos ((mem_canonicalKeys img c).1 hmem)]
  · rw [if_neg hmem, if_neg (fun h => hmem ((mem_canonicalKeys img c).2 h))]

/-- Witness for C5 at the 2×1 fixture. -/
theorem claim_tally_pass_shape_witness :
    lookupKey [(wGray, (⟨8, 0, 0⟩ : AdjacentPixelInfo))] wGray =
      if (∃ t ∈ wImg.pixelList, t.2.2 = wGray) ∧ wGray.is_transparent = false
      then some (specRecord wImg (initialClassification wImg) wGray) else none :=
  claim_tally_pass_shape wImg _ wImg_adj wGray

/-- C6: when the tally pass completes, every record of the adjacency map has
`total() ≥ 1`, so `fraction_adj_to` is never invoked on a zero total:
records exist only for colors occurring as non-transparent pixels, and the
first such pixel always tallies its up-left offset (out of bounds or a
different color). -/
theorem claim_total_positive (img : RgbaImage)
    (adj : List (Rgba × AdjacentPixelInfo))
    (hadj : adjacentResult img = .ok adj)
    (p : Rgba × AdjacentPixelInfo) (hp : p ∈ adj) :
    1 ≤ p.2.total := by
  rw [adjacentResult_ok_eq img adj hadj] at hp
  unfold specAdjacent at hp
  obtain ⟨c, hc, hpc⟩ := List.mem_map.1 hp
  rw [mem_canonicalKeys] at hc
  obtain ⟨⟨t, ht, htc⟩, htr⟩ := hc
  obtain ⟨x, y, p2⟩ := t
  rw [mem_pixelList] at ht
  have hpx : img.pix x y = c := by
    rw [← ht.2.2]
    exact htc
  have htotal := specRecord_total_pos img c htr y x ht.1 ht.2.1 hpx
  rw [← hpc]
  exact htotal

/-- Witness for C6 at the 2×1 fixture. -/
theorem claim_total_positive_witness :
    1 ≤ ((wGray, (⟨8, 0, 0⟩ : AdjacentPixelInfo)) : Rgba × AdjacentPixelInfo).2.total :=
  claim_total_positive wImg _ wImg_adj (wGray, ⟨8, 0, 0⟩) (by decide)

/-- C7: `classify_colors` is a deterministic pure function of the image:
seeding and scanning the adjacency hash map in any iteration order that
lists the same keys produces a map with identical lookups (and the identical
error if the run fails); there is no cross-call state. -/
theorem claim_order_independent (img : RgbaImage) (keys : List Rgba)
    (hperm : keys.Perm ((initialClassification img).map Prod.fst)) (c : Rgba) :
    (classifyColorsWithOrder img keys).map (fun m => lookupKey m c) =
      (classify_colors img).map (fun m => lookupKey m c) := by
  have hndC := nodup_keys_initialClassification img
  have hnd1 : keys.Nodup := (hperm.nodup_iff).2 hndC
  have hpermK : (keys.filter fun c => !c.is_transparent).Perm (canonicalKeys img) :=
    hperm.filter _
  have hnd1K : (keys.filter fun c => !c.is_transparent).Nodup := hnd1.filter _
  have hnd2K := nodup_canonicalKeys img
  have hsim := foldlM_sim img.pixelList
    (fun adj t => tallyPixel img (initialClassification img) adj t.1 t.2.1 t.2.2)
    (fun adj t => tallyPixel img (initialClassification img) adj t.1 t.2.1 t.2.2)
    (fun s1 s2 => ∃ g : Rgba → AdjacentPixelInfo,
      s1 = (keys.filter fun c => !c.is_transparent).map (fun c => (c, g c)) ∧
      s2 = (canonicalKeys img).map (fun c => (c, g c)))
    (fun s1 s2 t _ hR => tallyPixel_sim img (initialClassification img)
      t.1 t.2.1 t.2.2 _ _ hpermK hnd1K hnd2K s1 s2 hR)
    (seedAdjacent keys)
    (seedAdjacent ((initialClassification img).map Prod.fst))
    ⟨fun _ => AdjacentPixelInfo.new, seedAdjacent_eq keys hnd1,
      seedAdjacent_eq _ hndC⟩
  unfold classify_colors classifyColorsWithOrder tallyAll
  rcases h1 : img.pixelList.foldlM
      (fun adj t => tallyPixel img (initialClassification img) adj t.1 t.2.1 t.2.2)
      (seedAdjacent keys) with e1 | adj1
  · rcases h2 : img.pixelList.foldlM
        (fun adj t => tallyPixel img (initialClassification img) adj t.1 t.2.1 t.2.2)
        (seedAdjacent ((initialClassification img).map Prod.fst)) with e2 | adj2
    · rw [h1, h2] at hsim
      simp only [exceptRel] at hsim
      subst hsim
      rw [h1, h2]
    · rw [h1, h2] at hsim
      simp only [exceptRel] at hsim
  · rcases h2 : img.pixelList.foldlM
        (fun adj t => tallyPixel img (initialClassification img) adj t.1 t.2.1 t.2.2)
        (seedAdjacent ((initialClassification img).map Prod.fst)) with e2 | adj2
    · rw [h1, h2] at hsim
      simp only [exceptRel] at hsim
    · rw [h1, h2] at hsim
      simp only [exceptRel] at hsim
      obtain ⟨g, hg1, hg2⟩ := hsim
      rw [h1, h2, hg1, hg2]
      simp only [Except.map]
      exact congrArg Except.ok (applyShadow_lookup_perm _ _ _ hpermK g c)

/-- Witness for C7 at the 2×1 fixture with the key order reversed. -/
theorem claim_order_independent_witness :
    (classifyColorsWithOrder wImg [wGray, wTransp]).map (fun m => lookupKey m wGray) =
      (classify_colors wImg).map (fun m => lookupKey m wGray) :=
  claim_order_independent wImg [wGray, wTransp]
    (by rw [wImg_initial]; exact List.Perm.swap wTransp wGray []) wGray

end Substudy
